import Mathlib

/-!
Verification development for the `xdf2bids` XDF processor
(`src/xdf2bids/xdf_processor.py`).

The embedding models LSL times as exact rationals (`ℚ`), strings as Lean
strings, and the Python string methods as structurally recursive functions
over character lists.  Stateful pieces of the pipeline (the `XDFProcessor`
attributes) are turned into explicit data flow: each `_extract_*` method
becomes a function of the lists it reads.  `copy.deepcopy` and the in-place
onset mutations of `apply_relative_time_to_results` are additionally modelled
on an explicit heap of dictionary cells, so that the no-mutation frame
property is about genuine aliasing, not a triviality of pure functions.
-/

namespace Xdf

/-! ### Python string primitives (over `List Char`) -/

/-- Python substring test `pat in s`, on character lists. -/
def charsInfix (pat : List Char) : List Char → Bool
  | [] => pat.isEmpty
  | c :: rest => pat.isPrefixOf (c :: rest) || charsInfix pat rest

/-- Python substring test `pat in s`. -/
def substrOf (pat s : String) : Bool := charsInfix pat.data s.data

/-- Python `str.lower()` (the engine's patterns are ASCII). -/
def lowerStr (s : String) : String := ⟨s.data.map Char.toLower⟩

/-- Python `str.split(sep)` for a one-character separator. -/
def splitChar (sep : Char) : List Char → List (List Char)
  | [] => [[]]
  | c :: rest =>
    let r := splitChar sep rest
    if c = sep then [] :: r
    else
      match r with
      | [] => [[c]]
      | g :: gs => (c :: g) :: gs

/-- `s.split(':')`. -/
def splitOnColon (s : String) : List String := (splitChar ':' s.data).map String.mk

/-- Python `s.replace(pat, "")`, fuel-indexed so that it is structurally
recursive (each step consumes at least one character, so any fuel of at
least `s.length` gives the replace semantics; the fuel-0 fallback is
unreachable then). -/
def removeAllFuel (pat : List Char) : ℕ → List Char → List Char
  | 0, s => s
  | fuel + 1, s =>
    if pat ≠ [] ∧ pat.isPrefixOf s then removeAllFuel pat fuel (s.drop pat.length)
    else
      match s with
      | [] => []
      | c :: rest => c :: removeAllFuel pat fuel rest

/-- Python `s.replace(pat, "")`: remove every (left-to-right,
non-overlapping) occurrence of a non-empty `pat`. -/
def removeAll (pat s : List Char) : List Char := removeAllFuel pat s.length s

/-- Leading/trailing whitespace removal (Python `str.strip()` as applied by
`int()`/`float()`). -/
def trimChars (cs : List Char) : List Char :=
  ((cs.dropWhile (·.isWhitespace)).reverse.dropWhile (·.isWhitespace)).reverse

/-- Decimal digit-string value; `none` if empty or any non-digit occurs. -/
def digitsVal? (cs : List Char) : Option ℕ :=
  if cs = [] then none
  else cs.foldl (fun acc c =>
    acc.bind fun n => if c.isDigit then some (n * 10 + (c.toNat - 48)) else none)
    (some 0)

/-- Python `int(s)` on optionally signed decimal strings (whitespace
stripped); `none` where Python raises `ValueError`.  Underscored or
non-ASCII numerals are not modelled (unused by the processor's payloads). -/
def pyInt? (s : String) : Option ℤ :=
  match trimChars s.data with
  | '-' :: rest => (digitsVal? rest).map (fun n => -(n : ℤ))
  | '+' :: rest => (digitsVal? rest).map (fun n => (n : ℤ))
  | cs => (digitsVal? cs).map (fun n => (n : ℤ))

/-- Unsigned decimal with optional fractional part, e.g. `45.00090410000007`. -/
def decFrac? (cs : List Char) : Option ℚ :=
  match splitChar '.' cs with
  | [a] => (digitsVal? a).map (fun n => (n : ℚ))
  | [a, b] =>
    if a = [] ∧ b = [] then none
    else
      match (if a = [] then some 0 else digitsVal? a),
            (if b = [] then some 0 else digitsVal? b) with
      | some ip, some fp => some ((ip : ℚ) + (fp : ℚ) / (10 : ℚ) ^ b.length)
      | _, _ => none
  | _ => none

/-- Python `float(s)` on optionally signed decimal strings; `none` where
Python raises `ValueError`.  Exponent notation and `inf`/`nan` are not
modelled (the processor's marker payloads carry plain decimals). -/
def pyFloat? (s : String) : Option ℚ :=
  match trimChars s.data with
  | '-' :: rest => (decFrac? rest).map (fun q => -q)
  | '+' :: rest => decFrac? rest
  | cs => decFrac? cs

/-! ### Numeric helpers mirroring numpy/pandas -/

/-- Round half to even, as numpy/pandas rounding does at ties. -/
def roundHalfEven (x : ℚ) : ℤ :=
  if x - ⌊x⌋ < 1 / 2 then ⌊x⌋
  else if 1 / 2 < x - ⌊x⌋ then ⌊x⌋ + 1
  else if ⌊x⌋ % 2 = 0 then ⌊x⌋ else ⌊x⌋ + 1

/-- `Series.round(DUPLICATE_ONSET_DECIMALS)` with `DUPLICATE_ONSET_DECIMALS = 3`. -/
def round3 (x : ℚ) : ℚ := (roundHalfEven (x * 1000) : ℚ) / 1000

/-- `np.isclose(a, b, atol=1e-5)`; numpy's default `rtol = 1e-5` stays in
force, so the test is `|a - b| ≤ atol + rtol * |b|`. -/
def npIsClose (a b : ℚ) : Bool :=
  decide (|a - b| ≤ 1 / 100000 + 1 / 100000 * |b|)

/-! ### Streams and classification (`__init__`, `_organize_streams`,
`_is_marker_stream`, `_is_meta_stream`, `_classify_stream`) -/

/-- One entry of `self.stream_patterns`. -/
structure Rule where
  names : List String
  types : List String
  exactMatch : Bool
deriving DecidableEq, Repr

/-- The default `stream_patterns` table, in insertion order. -/
def stream_patterns : List (String × Rule) :=
  [("wii", ⟨["wii"], ["mocap"], false⟩),
   ("kinect", ⟨["kinect"], ["mocap"], false⟩),
   ("eye_tracker", ⟨["pupil_capture"], ["gaze"], true⟩),
   ("eye_tracker_fixations", ⟨["pupil_capture"], ["fixation"], false⟩),
   ("stimulus", ⟨["vr_bodysway", "stimulus", "stim"], ["timeseries"], false⟩),
   ("marker", ⟨["marker", "event", "trigger"], ["marker"], false⟩),
   ("meta", ⟨["trial_meta"], ["marker", "meta"], false⟩)]

/-- A loaded LSL stream, as the processor reads it: `info` fields flattened,
`desc`-derived channel labels (`none` when the nested descriptor is absent),
parallel timestamp/sample arrays.  Sample values are kept as strings; the
engine never computes with them. -/
structure XStream where
  name : String
  type : String
  channel_count : ℕ
  nominal_srate : ℚ
  effective_srate : ℚ
  desc_labels : Option (List String)
  time_stamps : List ℚ
  time_series : List (List String)
deriving DecidableEq, Repr

/-- `self.stream_patterns[role]`. -/
def patternFor (role : String) : Rule :=
  ((stream_patterns.find? (·.1 = role)).map (·.2)).getD ⟨[], [], false⟩

/-- `_is_marker_stream`: type and name both match the `'marker'` rule's
substrings. -/
def is_marker_stream (s : XStream) : Bool :=
  ((patternFor "marker").types.any fun i => substrOf i (lowerStr s.type)) &&
  ((patternFor "marker").names.any fun i => substrOf i (lowerStr s.name))

/-- `_is_meta_stream`: type and name both match the `'meta'` rule's
substrings. -/
def is_meta_stream (s : XStream) : Bool :=
  ((patternFor "meta").types.any fun i => substrOf i (lowerStr s.type)) &&
  ((patternFor "meta").names.any fun i => substrOf i (lowerStr s.name))

/-- `_organize_streams`: meta first, else marker, else data; groups in input
order.  Returned as `(data_streams, marker_streams, meta_streams)`. -/
def organize_streams (streams : List XStream) :
    List XStream × List XStream × List XStream :=
  streams.foldl
    (fun acc s =>
      if is_meta_stream s then (acc.1, acc.2.1, acc.2.2 ++ [s])
      else if is_marker_stream s then (acc.1, acc.2.1 ++ [s], acc.2.2)
      else (acc.1 ++ [s], acc.2.1, acc.2.2))
    ([], [], [])

/-- Whether a rule matches a (lower-cased) name/type pair. -/
def ruleAccepts (r : Rule) (nm ty : String) : Bool :=
  if r.exactMatch then (r.names.any (· = nm)) && (r.types.any (· = ty))
  else (r.names.any fun p => substrOf p nm) && (r.types.any fun p => substrOf p ty)

/-- `_classify_stream`: first matching rule wins, default `"data"`. -/
def classify_stream (s : XStream) : String :=
  match stream_patterns.find? fun pr =>
      ruleAccepts pr.2 (lowerStr s.name) (lowerStr s.type) with
  | some pr => pr.1
  | none => "data"

/-! #### The organizer is a three-way filter -/

/-- Predicate for the data group: neither meta nor marker. -/
def dataPred (s : XStream) : Bool := !is_meta_stream s && !is_marker_stream s

/-- Predicate for the marker group: marker but not meta. -/
def markerPred (s : XStream) : Bool := !is_meta_stream s && is_marker_stream s

theorem organize_streams_foldl (streams : List XStream)
    (a b c : List XStream) :
    streams.foldl
      (fun acc s =>
        if is_meta_stream s then (acc.1, acc.2.1, acc.2.2 ++ [s])
        else if is_marker_stream s then (acc.1, acc.2.1 ++ [s], acc.2.2)
        else (acc.1 ++ [s], acc.2.1, acc.2.2))
      (a, b, c) =
    (a ++ streams.filter dataPred, b ++ streams.filter markerPred,
      c ++ streams.filter is_meta_stream) := by
  induction streams generalizing a b c with
  | nil => simp
  | cons s rest ih =>
    by_cases hm : is_meta_stream s
    · simp [List.filter_cons, hm, dataPred, markerPred, ih]
    · by_cases hk : is_marker_stream s
      · simp [List.filter_cons, hm, hk, dataPred, markerPred, ih]
      · simp [List.filter_cons, hm, hk, dataPred, markerPred, ih]

theorem organize_streams_eq_filter (streams : List XStream) :
    organize_streams streams =
      (streams.filter dataPred, streams.filter markerPred,
        streams.filter is_meta_stream) := by
  simpa using organize_streams_foldl streams [] [] []

/-! ### Event parsing and extraction (`_extract_events`) -/

/-- `String.endsWith`, via character lists (Python `str.endswith`). -/
def endsWithStr (s pat : String) : Bool := pat.data.isSuffixOf s.data

/-- A `RawEvent` row of the events table. -/
structure Event where
  onset : ℚ
  duration : ℚ
  event_type : String
  source : String
  label : String
deriving DecidableEq, Repr

/-- Modelled from the spec: `parse_event_string` (in `xdf2bids.utils`, which
is not under `src/`).  Per §4.3 the payload is a colon-delimited encoding of
`key=value` attributes; recognized keys are extracted, and unparseable
payloads fall back to the opaque raw string. -/
structure ParsedEvent where
  label : Option String
  trial_name : Option String
  trial_type : Option String
  data : String
deriving DecidableEq, Repr

/-- Value of a `key=value` token for the given key, if it matches. -/
def keyVal (tok key : String) : Option String :=
  let pre := key.data ++ ['=']
  if pre.isPrefixOf tok.data then some ⟨tok.data.drop pre.length⟩ else none

/-- Modelled from the spec: `parse_event_string` splits the payload on `:`,
recognizes `key=value` fields, and keeps the raw payload under the fallback
key `data`. -/
def parse_event_string (payload : String) : ParsedEvent :=
  let toks := splitOnColon payload
  { label := (toks.filterMap fun t => keyVal t "label").head?,
    trial_name := (toks.filterMap fun t => keyVal t "trial_name").head?,
    trial_type := (toks.filterMap fun t => keyVal t "trial_type").head?,
    data := payload }

/-- The `label` column of an event row: the parsed `label` field, defaulting
to the opaque payload (the fallback that keeps the events table total on
`label`, which `_extract_events` dedups and reindexes on). -/
def eventLabel (payload : String) : String :=
  ((parse_event_string payload).label).getD payload

/-- The per-stream event loop of `_extract_events`: one row per sample whose
first element is a non-empty string. -/
def rawEvents (marker_streams : List XStream) : List Event :=
  marker_streams.flatMap fun st =>
    (st.time_stamps.zip st.time_series).filterMap fun p =>
      match p.2 with
      | [] => none
      | v :: _ =>
        if v = "" then none
        else some { onset := p.1, duration := 0, event_type := v,
                    source := st.name, label := eventLabel v }

/-- `drop_duplicates(subset=..., keep='first')`: keep the first row of each
key group, in order. -/
def dedupByKey {α κ : Type} [DecidableEq κ] (key : α → κ) (l : List α) : List α :=
  l.foldl (fun acc e => if acc.any fun p => key p = key e then acc else acc ++ [e]) []

/-- The deduplication key of `_extract_events`:
`['label', 'onset_rounded']`. -/
def evKey (e : Event) : String × ℚ := (e.label, round3 e.onset)

/-- Ascending sort on a rational key (`sort_values(by='onset')` /
`list.sort(key=...)`; tie order is immaterial to every verified claim). -/
def sortOnQ {α : Type} (key : α → ℚ) (l : List α) : List α :=
  List.insertionSort (fun a b => key a ≤ key b) l

/-- `_extract_events`: parse all marker samples, deduplicate on
`(label, onset rounded to 3 decimals)` keeping the first, sort by onset. -/
def extract_events (marker_streams : List XStream) : List Event :=
  sortOnQ Event.onset (dedupByKey evKey (rawEvents marker_streams))

/-! ### Metadata extraction (`_extract_meta`) -/

/-- A `MetaRecord` row (raw `data` payload dropped after parsing). -/
structure MetaRec where
  onset : ℚ
  source : String
  label : Option String
  trial_name : Option String
  trial_type : Option String
deriving DecidableEq, Repr

/-- Per-stream metadata loop: `(parsed record, raw payload)` pairs. -/
def rawMeta (meta_streams : List XStream) : List (MetaRec × String) :=
  meta_streams.flatMap fun st =>
    (st.time_stamps.zip st.time_series).filterMap fun p =>
      match p.2 with
      | [] => none
      | v :: _ =>
        let q := parse_event_string v
        some ({ onset := p.1, source := st.name, label := q.label,
                trial_name := q.trial_name, trial_type := q.trial_type }, v)

/-- `_extract_meta`: dedup on rounded onset plus `trial_name` when that
column exists, else the raw payload; sort by onset; drop the payload. -/
def extract_meta (meta_streams : List XStream) : List MetaRec :=
  let recs := rawMeta meta_streams
  if recs = [] then []
  else
    let hasTN := recs.any fun r => r.1.trial_name ≠ none
    let deduped :=
      if hasTN then dedupByKey (fun r => (round3 r.1.onset, r.1.trial_name)) recs
      else dedupByKey (fun r => (round3 r.1.onset, r.2)) recs
    (sortOnQ (fun r => r.1.onset) deduped).map (·.1)

/-! ### Trial reconstruction (`_extract_trials_from_events`) -/

structure Trial where
  onset : ℚ
  duration : ℚ
  trial_type : String
  trial_number : ℤ
deriving DecidableEq, Repr

/-- `int(parts[1])` and `float(parts[3].replace('duration=', ''))` on the
colon-split payload; `none` on `ValueError`/`IndexError`. -/
def parseTrialParts (event_type : String) : Option (ℤ × ℚ) :=
  let parts := splitOnColon event_type
  match parts[1]?, parts[3]? with
  | some p1, some p3 =>
    match pyInt? p1, pyFloat? ⟨removeAll "duration=".data p3.data⟩ with
    | some n, some d => some (n, d)
    | _, _ => none
  | _, _ => none

/-- Candidate trial records, in sorted-event order: one per event whose
payload contains `'TRIAL_END:'` and `':duration='` and parses. -/
def trialCandidates (events : List Event) : List Trial :=
  (sortOnQ Event.onset events).filterMap fun e =>
    if substrOf "TRIAL_END:" e.event_type && substrOf ":duration=" e.event_type then
      (parseTrialParts e.event_type).map fun nd =>
        { onset := e.onset - nd.2, duration := nd.2,
          trial_type := "trial_" ++ toString nd.1, trial_number := nd.1 }
    else none

/-- The `unique_trials` dict step: overwrite the entry (keeping its
position) when the new candidate's onset is strictly later. -/
def upsertTrial (acc : List Trial) (t : Trial) : List Trial :=
  if acc.any fun u => u.trial_number = t.trial_number then
    acc.map fun u =>
      if u.trial_number = t.trial_number then (if t.onset > u.onset then t else u) else u
  else acc ++ [t]

/-- `_extract_trials_from_events` (marker-event path). -/
def extract_trials_from_events (events : List Event) : List Trial :=
  sortOnQ Trial.onset ((trialCandidates events).foldl upsertTrial [])

/-! ### Perturbation pairing (`_extract_perturbations_from_events`) -/

structure Pert where
  onset : ℚ
  duration : ℚ
  event_type : String
  source : String
deriving DecidableEq, Repr

def pertOf (e : Event) : Pert := ⟨e.onset, 0, e.event_type, e.source⟩

/-- `'perturbation_start' in event['event_type'].lower()`. -/
def isPertStart (e : Event) : Bool := substrOf "perturbation_start" (lowerStr e.event_type)

/-- `elif 'perturbation_end' in ...`: only events not already taken as
starts. -/
def isPertEnd (e : Event) : Bool :=
  !isPertStart e && substrOf "perturbation_end" (lowerStr e.event_type)

/-- `deduplicate_on_onset(events, atol=1e-5)`: keep an event only when its
onset is not `np.isclose` to any previously kept onset. -/
def deduplicate_on_onset (evs : List Pert) : List Pert :=
  evs.foldl
    (fun ded ev => if ded.any fun prev => npIsClose ev.onset prev.onset then ded else ded ++ [ev])
    []

def pertStarts (events : List Event) : List Pert :=
  deduplicate_on_onset (sortOnQ Pert.onset ((events.filter isPertStart).map pertOf))

def pertEnds (events : List Event) : List Pert :=
  deduplicate_on_onset (sortOnQ Pert.onset ((events.filter isPertEnd).map pertOf))

/-- Pair a start with its end: duration is the onset difference. -/
def pertPair (s e : Pert) : Pert :=
  { s with duration := e.onset - s.onset, event_type := "perturbation" }

/-- `_extract_perturbations_from_events`: equal counts pair index-for-index;
exactly one orphan start pads the ends with the last start (zero-duration
terminal); any other mismatch yields no perturbations (with a warning). -/
def extract_perturbations_from_events (events : List Event) : List Pert :=
  let starts := pertStarts events
  let ends := pertEnds events
  if starts.length = ends.length then List.zipWith pertPair starts ends
  else if starts.length = ends.length + 1 then
    match starts.getLast? with
    | some last => List.zipWith pertPair starts (ends ++ [last])
    | none => []
  else []

/-! ### Overlap window (`_find_overlap_window`) -/

/-- `start_times`: first timestamp of each data stream with samples. -/
def startTimes (ds : List XStream) : List ℚ := ds.filterMap fun s => s.time_stamps.head?

/-- `end_times`: last timestamp of each data stream with samples. -/
def endTimes (ds : List XStream) : List ℚ := ds.filterMap fun s => s.time_stamps.getLast?

def qMax : List ℚ → ℚ
  | [] => 0
  | x :: xs => xs.foldl max x

def qMin : List ℚ → ℚ
  | [] => 0
  | x :: xs => xs.foldl min x

/-- `_find_overlap_window`, with a boolean recording whether the
`"No overlap found"` warning fired (the only degradation signal, which goes
to the log, not into the returned bundle). -/
def find_overlap_window (ds : List XStream) : (ℚ × ℚ) × Bool :=
  if ds = [] then ((0, 1), false)
  else
    let starts := startTimes ds
    if starts = [] then ((0, 1), false)
    else
      let os := qMax starts
      let oe := qMin (endTimes ds)
      if os ≤ oe then ((os, oe), false)
      else ((qMin starts, qMax (endTimes ds)), true)

/-! ### Channel labels (`_get_channel_labels`) -/

/-- `_get_channel_labels`: labels from the descriptor (non-empty ones),
padded with `Channel_<i>` up to `channel_count`, truncated to
`channel_count`, with a `time` label renamed `trial_time`. -/
def get_channel_labels (s : XStream) : List String :=
  let fromDesc :=
    match s.desc_labels with
    | some ls => ls.filter (· ≠ "")
    | none => []
  let padded := fromDesc ++
    (List.range (s.channel_count - fromDesc.length)).map
      fun i => "Channel_" ++ toString (fromDesc.length + i + 1)
  (padded.take s.channel_count).map fun l => if lowerStr l = "time" then "trial_time" else l

/-! ### The result bundle (`process_data`) -/

/-- A value of the `results['data']` dict: either a `raw_data` block or a
timestamps array. -/
inductive DataVal where
  | raw (rows : List (List String))
  | stamps (ts : List ℚ)
deriving DecidableEq, Repr

/-- One `results['metadata']` record. -/
structure StreamMeta where
  name : String
  channel_count : ℕ
  nominal_srate : ℚ
  effective_srate : ℚ
  type : String
  channel_labels : List String
  samples : ℕ
deriving DecidableEq, Repr

/-- `results['processing_info']`. -/
structure ProcInfo where
  data_streams_processed : ℕ
  events_found : ℕ
  trials_found : ℕ
  duration : ℚ
deriving DecidableEq, Repr

/-- The `results` dictionary returned by `process_data`.  The
`use_relative_time` key is absent (`none`) until
`apply_relative_time_to_results` adds it. -/
structure Results where
  data : List (String × DataVal)
  metadata : List (String × StreamMeta)
  events : List Event
  meta : List MetaRec
  trials : List Trial
  perturbations : List Pert
  time_window : ℚ × ℚ
  global_t0 : ℚ
  processing_info : ProcInfo
  use_relative_time : Option Bool := none
deriving DecidableEq, Repr

/-- Python dict assignment on an insertion-ordered association list:
overwrite in place, else append. -/
def alistSet {α : Type} (d : List (String × α)) (k : String) (v : α) :
    List (String × α) :=
  if d.any (·.1 = k) then d.map fun e => if e.1 = k then (k, v) else e
  else d ++ [(k, v)]

/-- The boolean window mask `(timestamps >= start) & (timestamps <= end)`
applied to the paired timestamp/sample arrays. -/
def windowed (s : XStream) (w : ℚ × ℚ) : List (ℚ × List String) :=
  (s.time_stamps.zip s.time_series).filter fun p =>
    decide (w.1 ≤ p.1) && decide (p.1 ≤ w.2)

/-- The per-data-stream loop body of `process_data`. -/
def processStream (w : ℚ × ℚ)
    (acc : List (String × DataVal) × List (String × StreamMeta)) (s : XStream) :
    List (String × DataVal) × List (String × StreamMeta) :=
  let wd := windowed s w
  if wd = [] then acc
  else
    let sty := classify_stream s
    let pd := alistSet acc.1 sty (DataVal.raw (wd.map (·.2)))
    let pd := alistSet pd (sty ++ "_timestamps") (DataVal.stamps (wd.map (·.1)))
    let md := alistSet acc.2 sty
      { name := s.name, channel_count := s.channel_count,
        nominal_srate := s.nominal_srate, effective_srate := s.effective_srate,
        type := s.type, channel_labels := get_channel_labels s,
        samples := wd.length }
    (pd, md)

/-- `process_data`: extraction pipeline, overlap window, windowed data, and
the assembled results dictionary. -/
def process_data (streams : List XStream) : Results :=
  let org := organize_streams streams
  let ds := org.1
  let events := extract_events org.2.1
  let meta := extract_meta org.2.2
  let events2 := sortOnQ Event.onset events
  let trials := extract_trials_from_events events
  let perts := extract_perturbations_from_events events2
  let w := (find_overlap_window ds).1
  let pm := ds.foldl (processStream w) ([], [])
  { data := pm.1, metadata := pm.2, events := events2, meta := meta,
    trials := trials, perturbations := perts, time_window := w,
    global_t0 := w.1,
    processing_info :=
      { data_streams_processed := pm.1.length, events_found := events2.length,
        trials_found := trials.length, duration := w.2 - w.1 },
    use_relative_time := none }

/-! ### Rebasing (`apply_relative_time_to_results`), value level -/

/-- The data-dict loop: keys ending in `_timestamps` get `global_t0`
subtracted from their array.  (For bundles built by `process_data` such keys
always hold `stamps` values.) -/
def rebaseDataEntry (t0 : ℚ) (e : String × DataVal) : String × DataVal :=
  if endsWithStr e.1 "_timestamps" then
    match e.2 with
    | DataVal.stamps ts => (e.1, DataVal.stamps (ts.map (· - t0)))
    | v => (e.1, v)
  else e

/-- `apply_relative_time_to_results`, value semantics: the deep copy with
every data-timestamp array and every event/meta/trial/perturbation onset
rebased by `global_t0 = results['time_window'][0]`, and
`use_relative_time = True` added; `time_window`, `global_t0`, `metadata` and
`processing_info` are carried over unchanged. -/
def apply_relative_time_to_results (results : Results) : Results :=
  let t0 := results.time_window.1
  { results with
    data := results.data.map (rebaseDataEntry t0),
    events := results.events.map fun e => { e with onset := e.onset - t0 },
    meta := results.meta.map fun m => { m with onset := m.onset - t0 },
    trials := results.trials.map fun t => { t with onset := t.onset - t0 },
    perturbations := results.perturbations.map fun p => { p with onset := p.onset - t0 },
    use_relative_time := some true }

/-! ### Theorems -/

theorem count_filter_eq (p : XStream → Bool) (s : XStream) (l : List XStream) :
    (l.filter p).count s = if p s then l.count s else 0 := by
  induction l with
  | nil => simp
  | cons x t ih =>
    by_cases hx : x = s
    · subst hx
      by_cases hp : p x <;> simp [List.filter_cons, hp, List.count_cons, ih]
    · by_cases hp : p x <;>
        simp [List.filter_cons, hp, List.count_cons, hx, ih]

theorem count_partition (s : XStream) (l : List XStream) :
    (l.filter dataPred).count s + (l.filter markerPred).count s +
      (l.filter is_meta_stream).count s = l.count s := by
  rw [count_filter_eq dataPred, count_filter_eq markerPred,
    count_filter_eq is_meta_stream]
  by_cases hm : is_meta_stream s <;> by_cases hk : is_marker_stream s <;>
    simp [dataPred, markerPred, hm, hk]

/-- C4: `_organize_streams` partitions the stream sequence: each group is
the order-preserving subsequence selected by its predicate (meta first, else
marker, else data), and each input occurrence lands in exactly one group
(the three groups' multiplicities sum to the input's). -/
theorem organize_streams_is_partition (streams : List XStream) :
    organize_streams streams =
      (streams.filter dataPred, streams.filter markerPred,
        streams.filter is_meta_stream) ∧
    (∀ s : XStream,
      (organize_streams streams).1.count s +
        (organize_streams streams).2.1.count s +
        (organize_streams streams).2.2.count s = streams.count s) ∧
    (organize_streams streams).1.Sublist streams ∧
    (organize_streams streams).2.1.Sublist streams ∧
    (organize_streams streams).2.2.Sublist streams := by
  refine ⟨organize_streams_eq_filter streams, ?_, ?_, ?_, ?_⟩ <;>
    rw [organize_streams_eq_filter streams]
  · exact fun s => count_partition s streams
  · exact List.filter_sublist streams
  · exact List.filter_sublist streams
  · exact List.filter_sublist streams

/-- C10: the rebase touches only the `_timestamps` arrays and the onset
fields; `time_window`, `global_t0`, `metadata` and `processing_info` keep
their absolute-time values in the returned copy, and `use_relative_time :=
true` is added. -/
theorem apply_relative_time_frame (r : Results) :
    (apply_relative_time_to_results r).time_window = r.time_window ∧
    (apply_relative_time_to_results r).global_t0 = r.global_t0 ∧
    (apply_relative_time_to_results r).use_relative_time = some true ∧
    (apply_relative_time_to_results r).metadata = r.metadata ∧
    (apply_relative_time_to_results r).processing_info = r.processing_info ∧
    (apply_relative_time_to_results r).events =
      r.events.map (fun e => { e with onset := e.onset - r.time_window.1 }) ∧
    (apply_relative_time_to_results r).meta =
      r.meta.map (fun m => { m with onset := m.onset - r.time_window.1 }) ∧
    (apply_relative_time_to_results r).trials =
      r.trials.map (fun t => { t with onset := t.onset - r.time_window.1 }) ∧
    (apply_relative_time_to_results r).perturbations =
      r.perturbations.map (fun p => { p with onset := p.onset - r.time_window.1 }) ∧
    (apply_relative_time_to_results r).data =
      r.data.map (rebaseDataEntry r.time_window.1) := by
  refine ⟨rfl, rfl, rfl, rfl, rfl, rfl, rfl, rfl, rfl, rfl⟩

/-- The round-trip inverse from the spec's rebase property: add `t0` back to
every rebased onset field and every rebased timestamps array. -/
def addT0 (t0 : ℚ) (r : Results) : Results :=
  { r with
    data := r.data.map fun e =>
      if endsWithStr e.1 "_timestamps" then
        match e.2 with
        | DataVal.stamps ts => (e.1, DataVal.stamps (ts.map (· + t0)))
        | v => (e.1, v)
      else e,
    events := r.events.map fun e => { e with onset := e.onset + t0 },
    meta := r.meta.map fun m => { m with onset := m.onset + t0 },
    trials := r.trials.map fun t => { t with onset := t.onset + t0 },
    perturbations := r.perturbations.map fun p => { p with onset := p.onset + t0 } }

theorem events_sub_add (w : ℚ) (l : List Event) :
    (l.map fun e => { e with onset := e.onset - w }).map
      (fun e => { e with onset := e.onset + w }) = l := by
  induction l with
  | nil => rfl
  | cons e t ih => cases e; simp [ih]

theorem meta_sub_add (w : ℚ) (l : List MetaRec) :
    (l.map fun m => { m with onset := m.onset - w }).map
      (fun m => { m with onset := m.onset + w }) = l := by
  induction l with
  | nil => rfl
  | cons m t ih => cases m; simp [ih]

theorem trials_sub_add (w : ℚ) (l : List Trial) :
    (l.map fun t => { t with onset := t.onset - w }).map
      (fun t => { t with onset := t.onset + w }) = l := by
  induction l with
  | nil => rfl
  | cons t r ih => cases t; simp [ih]

theorem perts_sub_add (w : ℚ) (l : List Pert) :
    (l.map fun p => { p with onset := p.onset - w }).map
      (fun p => { p with onset := p.onset + w }) = l := by
  induction l with
  | nil => rfl
  | cons p t ih => cases p; simp [ih]

theorem data_sub_add (w : ℚ) (l : List (String × DataVal)) :
    (l.map (rebaseDataEntry w)).map
      (fun e =>
        if endsWithStr e.1 "_timestamps" then
          match e.2 with
          | DataVal.stamps ts => (e.1, DataVal.stamps (ts.map (· + w)))
          | v => (e.1, v)
        else e) = l := by
  induction l with
  | nil => rfl
  | cons e t ih =>
    rcases e with ⟨k, v⟩
    by_cases hk : endsWithStr k "_timestamps"
    · cases v <;>
        simp [rebaseDataEntry, hk, ih, List.map_map, Function.comp_def]
    · simp [rebaseDataEntry, hk, ih]

/-- C5: for any bundle produced by `process_data`, rebasing and then adding
`global_t0` back to every rebased onset field and timestamps array
reproduces the original onsets and timestamps exactly (in the exact-rational
model the round trip has error `0`, in particular within `1e-9`). -/
theorem rebase_roundtrip (streams : List XStream) :
    (addT0 (process_data streams).global_t0
        (apply_relative_time_to_results (process_data streams))).events =
      (process_data streams).events ∧
    (addT0 (process_data streams).global_t0
        (apply_relative_time_to_results (process_data streams))).meta =
      (process_data streams).meta ∧
    (addT0 (process_data streams).global_t0
        (apply_relative_time_to_results (process_data streams))).trials =
      (process_data streams).trials ∧
    (addT0 (process_data streams).global_t0
        (apply_relative_time_to_results (process_data streams))).perturbations =
      (process_data streams).perturbations ∧
    (addT0 (process_data streams).global_t0
        (apply_relative_time_to_results (process_data streams))).data =
      (process_data streams).data := by
  have hg : (process_data streams).global_t0 =
      (process_data streams).time_window.1 := rfl
  rw [hg]
  exact ⟨events_sub_add _ _, meta_sub_add _ _, trials_sub_add _ _,
    perts_sub_add _ _, data_sub_add _ _⟩

/-- C9: with no data streams, or with every data stream's timestamp array
empty, `_find_overlap_window` returns the fixed window `(0, 1)` without any
degradation warning, and `process_data` records `time_window = (0, 1)` and
`global_t0 = 0`. -/
theorem empty_streams_default_window (streams : List XStream)
    (h : (organize_streams streams).1 = [] ∨
      ∀ s ∈ (organize_streams streams).1, s.time_stamps = []) :
    find_overlap_window (organize_streams streams).1 = ((0, 1), false) ∧
    (process_data streams).time_window = (0, 1) ∧
    (process_data streams).global_t0 = 0 := by
  have hw : find_overlap_window (organize_streams streams).1 = ((0, 1), false) := by
    rcases h with h | h
    · simp [find_overlap_window, h]
    · rcases hds : (organize_streams streams).1 with _ | ⟨s, rest⟩
      · simp [find_overlap_window]
      · have hempty : startTimes ((organize_streams streams).1) = [] := by
          simp only [startTimes, List.filterMap_eq_nil_iff]
          intro a ha
          simp [h a ha]
        rw [← hds, find_overlap_window]
        simp [hds, hempty, startTimes] at *
        simp [hempty, hds] at *
        tauto
  refine ⟨hw, ?_, ?_⟩ <;> simp [process_data, hw]

theorem empty_streams_default_window_witness :
    ((organize_streams ([] : List XStream)).1 = [] ∨
      ∀ s ∈ (organize_streams ([] : List XStream)).1, s.time_stamps = []) ∧
    (find_overlap_window (organize_streams ([] : List XStream)).1 = ((0, 1), false) ∧
      (process_data ([] : List XStream)).time_window = (0, 1) ∧
      (process_data ([] : List XStream)).global_t0 = 0) :=
  ⟨Or.inl rfl, empty_streams_default_window [] (Or.inl rfl)⟩

/-! ### C1: overlap window, fallback, and the absence of a degraded flag -/

theorem foldl_max_mem (xs : List ℚ) (x : ℚ) : xs.foldl max x ∈ x :: xs := by
  induction xs generalizing x with
  | nil => simp
  | cons y ys ih =>
    rw [List.foldl_cons]
    have h := ih (max x y)
    rcases List.mem_cons.mp h with h | h
    · rcases max_choice x y with hm | hm <;> rw [hm] at h ⊢ <;> simp [h]
    · simp [h]

theorem le_foldl_max (xs : List ℚ) (x : ℚ) :
    ∀ y ∈ x :: xs, y ≤ xs.foldl max x := by
  induction xs generalizing x with
  | nil => simp
  | cons z zs ih =>
    intro y hy
    have hstep := ih (max x z)
    rcases List.mem_cons.mp hy with h | h
    · subst h
      exact le_trans (le_max_left y z) (hstep _ (List.mem_cons_self _ _))
    · rcases List.mem_cons.mp h with h | h
      · subst h
        exact le_trans (le_max_right x y) (hstep _ (List.mem_cons_self _ _))
      · exact hstep _ (List.mem_cons_of_mem _ h)

theorem foldl_min_mem (xs : List ℚ) (x : ℚ) : xs.foldl min x ∈ x :: xs := by
  induction xs generalizing x with
  | nil => simp
  | cons y ys ih =>
    rw [List.foldl_cons]
    have h := ih (min x y)
    rcases List.mem_cons.mp h with h | h
    · rcases min_choice x y with hm | hm <;> rw [hm] at h ⊢ <;> simp [h]
    · simp [h]

theorem foldl_min_le (xs : List ℚ) (x : ℚ) :
    ∀ y ∈ x :: xs, xs.foldl min x ≤ y := by
  induction xs generalizing x with
  | nil => simp
  | cons z zs ih =>
    intro y hy
    have hstep := ih (min x z)
    rcases List.mem_cons.mp hy with h | h
    · subst h
      exact le_trans (hstep _ (List.mem_cons_self _ _)) (min_le_left y z)
    · rcases List.mem_cons.mp h with h | h
      · subst h
        exact le_trans (hstep _ (List.mem_cons_self _ _)) (min_le_right x y)
      · exact hstep _ (List.mem_cons_of_mem _ h)

theorem qMax_mem (l : List ℚ) (h : l ≠ []) : qMax l ∈ l := by
  cases l with
  | nil => exact absurd rfl h
  | cons x xs => simpa [qMax] using foldl_max_mem xs x

theorem le_qMax (l : List ℚ) : ∀ y ∈ l, y ≤ qMax l := by
  cases l with
  | nil => simp
  | cons x xs => simpa [qMax] using le_foldl_max xs x

theorem qMin_mem (l : List ℚ) (h : l ≠ []) : qMin l ∈ l := by
  cases l with
  | nil => exact absurd rfl h
  | cons x xs => simpa [qMin] using foldl_min_mem xs x

theorem qMin_le (l : List ℚ) : ∀ y ∈ l, qMin l ≤ y := by
  cases l with
  | nil => simp
  | cons x xs => simpa [qMin] using foldl_min_le xs x

/-- C1 (amended): over a non-empty data-stream set with non-empty timestamp
arrays, `_find_overlap_window` returns
`(max per-stream first, min per-stream last)` when that start is ≤ that end
(with no degradation warning), and otherwise falls back to
`(min per-stream first, max per-stream last)` with the non-fatal warning
signal; `process_data` stores the window as `time_window` and its start as
`global_t0`.  (The fallback is observable only in the warning log: the
returned bundle itself carries no degraded flag — see the counterexample.) -/
theorem overlap_window_fallback (streams : List XStream)
    (h1 : (organize_streams streams).1 ≠ [])
    (h2 : ∀ s ∈ (organize_streams streams).1, s.time_stamps ≠ []) :
    ((find_overlap_window (organize_streams streams).1).2 = false →
      (find_overlap_window (organize_streams streams).1).1 =
        (qMax (startTimes (organize_streams streams).1),
          qMin (endTimes (organize_streams streams).1)) ∧
      qMax (startTimes (organize_streams streams).1) ≤
        qMin (endTimes (organize_streams streams).1)) ∧
    ((find_overlap_window (organize_streams streams).1).2 = true →
      (find_overlap_window (organize_streams streams).1).1 =
        (qMin (startTimes (organize_streams streams).1),
          qMax (endTimes (organize_streams streams).1)) ∧
      qMin (endTimes (organize_streams streams).1) <
        qMax (startTimes (organize_streams streams).1)) ∧
    ((∃ s ∈ (organize_streams streams).1,
        s.time_stamps.head? = some (qMax (startTimes (organize_streams streams).1))) ∧
      ∀ s ∈ (organize_streams streams).1, ∀ x,
        s.time_stamps.head? = some x →
          x ≤ qMax (startTimes (organize_streams streams).1)) ∧
    ((∃ s ∈ (organize_streams streams).1,
        s.time_stamps.getLast? = some (qMin (endTimes (organize_streams streams).1))) ∧
      ∀ s ∈ (organize_streams streams).1, ∀ x,
        s.time_stamps.getLast? = some x →
          qMin (endTimes (organize_streams streams).1) ≤ x) ∧
    (process_data streams).time_window =
      (find_overlap_window (organize_streams streams).1).1 ∧
    (process_data streams).global_t0 =
      (find_overlap_window (organize_streams streams).1).1.1 := by
  have hst : startTimes (organize_streams streams).1 ≠ [] := by
    rcases hds : (organize_streams streams).1 with _ | ⟨s, rest⟩
    · exact absurd hds h1
    · have hs : s.time_stamps ≠ [] := h2 s (by rw [hds]; exact List.mem_cons_self _ _)
      rcases hx : s.time_stamps with _ | ⟨t0, ts⟩
      · exact absurd hx hs
      · simp [startTimes, hx]
  have hwin : find_overlap_window (organize_streams streams).1 =
      (if qMax (startTimes (organize_streams streams).1) ≤
          qMin (endTimes (organize_streams streams).1) then
        ((qMax (startTimes (organize_streams streams).1),
          qMin (endTimes (organize_streams streams).1)), false)
      else
        ((qMin (startTimes (organize_streams streams).1),
          qMax (endTimes (organize_streams streams).1)), true)) := by
    rw [find_overlap_window, if_neg h1, if_neg hst]
  refine ⟨?_, ?_, ?_, ?_, rfl, rfl⟩
  · intro hfl
    by_cases hle : qMax (startTimes (organize_streams streams).1) ≤
        qMin (endTimes (organize_streams streams).1)
    · rw [hwin, if_pos hle]
      exact ⟨rfl, hle⟩
    · rw [hwin, if_neg hle] at hfl
      simp at hfl
  · intro hfl
    by_cases hle : qMax (startTimes (organize_streams streams).1) ≤
        qMin (endTimes (organize_streams streams).1)
    · rw [hwin, if_pos hle] at hfl
      simp at hfl
    · rw [hwin, if_neg hle]
      exact ⟨rfl, lt_of_not_le hle⟩
  · constructor
    · have hmem := qMax_mem _ hst
      rcases List.mem_filterMap.mp hmem with ⟨s, hs, hhead⟩
      exact ⟨s, hs, hhead⟩
    · intro s hs x hx
      exact le_qMax _ x (List.mem_filterMap.mpr ⟨s, hs, hx⟩)
  · have hend : endTimes (organize_streams streams).1 ≠ [] := by
      rcases hds : (organize_streams streams).1 with _ | ⟨s, rest⟩
      · exact absurd hds h1
      · have hs : s.time_stamps ≠ [] := h2 s (by rw [hds]; exact List.mem_cons_self _ _)
        have : s.time_stamps.getLast? ≠ none := by
          simpa [List.getLast?_eq_none_iff] using hs
        rcases hlast : s.time_stamps.getLast? with _ | x
        · exact absurd hlast this
        · simp [endTimes, hlast]
    constructor
    · have hmem := qMin_mem _ hend
      rcases List.mem_filterMap.mp hmem with ⟨s, hs, hlast⟩
      exact ⟨s, hs, hlast⟩
    · intro s hs x hx
      exact qMin_le _ x (List.mem_filterMap.mpr ⟨s, hs, hx⟩)

/-- C1 witness instance: stream A spans `[0, 10]`, stream B `[2, 8]`; the
overlap window is `(2, 8)` with no degradation warning. -/
theorem overlap_window_fallback_witness :
    ((organize_streams
        [⟨"wii_board", "mocap", 1, 0, 0, none, [0, 10], [["a"], ["b"]]⟩,
         ⟨"kinect_cam", "mocap", 1, 0, 0, none, [2, 8], [["c"], ["d"]]⟩]).1 ≠ [] ∧
      (∀ s ∈ (organize_streams
        [⟨"wii_board", "mocap", 1, 0, 0, none, [0, 10], [["a"], ["b"]]⟩,
         ⟨"kinect_cam", "mocap", 1, 0, 0, none, [2, 8], [["c"], ["d"]]⟩]).1,
        s.time_stamps ≠ [])) ∧
    (find_overlap_window (organize_streams
        [⟨"wii_board", "mocap", 1, 0, 0, none, [0, 10], [["a"], ["b"]]⟩,
         ⟨"kinect_cam", "mocap", 1, 0, 0, none, [2, 8], [["c"], ["d"]]⟩]).1).1 = (2, 8) ∧
    (find_overlap_window (organize_streams
        [⟨"wii_board", "mocap", 1, 0, 0, none, [0, 10], [["a"], ["b"]]⟩,
         ⟨"kinect_cam", "mocap", 1, 0, 0, none, [2, 8], [["c"], ["d"]]⟩]).1).2 = false ∧
    ((find_overlap_window (organize_streams
        [⟨"wii_board", "mocap", 1, 0, 0, none, [0, 10], [["a"], ["b"]]⟩,
         ⟨"kinect_cam", "mocap", 1, 0, 0, none, [2, 8], [["c"], ["d"]]⟩]).1).2 = false →
      (find_overlap_window (organize_streams
        [⟨"wii_board", "mocap", 1, 0, 0, none, [0, 10], [["a"], ["b"]]⟩,
         ⟨"kinect_cam", "mocap", 1, 0, 0, none, [2, 8], [["c"], ["d"]]⟩]).1).1 =
        (qMax (startTimes (organize_streams
          [⟨"wii_board", "mocap", 1, 0, 0, none, [0, 10], [["a"], ["b"]]⟩,
           ⟨"kinect_cam", "mocap", 1, 0, 0, none, [2, 8], [["c"], ["d"]]⟩]).1),
         qMin (endTimes (organize_streams
          [⟨"wii_board", "mocap", 1, 0, 0, none, [0, 10], [["a"], ["b"]]⟩,
           ⟨"kinect_cam", "mocap", 1, 0, 0, none, [2, 8], [["c"], ["d"]]⟩]).1)) ∧
      qMax (startTimes (organize_streams
          [⟨"wii_board", "mocap", 1, 0, 0, none, [0, 10], [["a"], ["b"]]⟩,
           ⟨"kinect_cam", "mocap", 1, 0, 0, none, [2, 8], [["c"], ["d"]]⟩]).1) ≤
        qMin (endTimes (organize_streams
          [⟨"wii_board", "mocap", 1, 0, 0, none, [0, 10], [["a"], ["b"]]⟩,
           ⟨"kinect_cam", "mocap", 1, 0, 0, none, [2, 8], [["c"], ["d"]]⟩]).1)) := by
  refine ⟨⟨by decide, by decide⟩, by decide, by decide, ?_⟩
  exact (overlap_window_fallback
    [⟨"wii_board", "mocap", 1, 0, 0, none, [0, 10], [["a"], ["b"]]⟩,
     ⟨"kinect_cam", "mocap", 1, 0, 0, none, [2, 8], [["c"], ["d"]]⟩]
    (by decide) (by decide)).1

/-- C1 counterexample to the original claim: a non-overlapping input
(`wii [0,5]`, `kinect [6,10]`, fallback window `(0,10)` with the degradation
warning) and an overlapping input (`wii [0,5,11]`, `kinect [-1,6,10]`,
window `(0,10)` without it) produce *identical* result bundles, so no
"degraded flag" is set in — or even derivable from — the bundle returned to
the caller. -/
theorem no_degraded_flag_in_results :
    process_data
        [⟨"wii_board", "mocap", 1, 0, 0, none, [0, 5], [["a"], ["b"]]⟩,
         ⟨"kinect_cam", "mocap", 1, 0, 0, none, [6, 10], [["c"], ["d"]]⟩] =
      process_data
        [⟨"wii_board", "mocap", 1, 0, 0, none, [0, 5, 11], [["a"], ["b"], ["z"]]⟩,
         ⟨"kinect_cam", "mocap", 1, 0, 0, none, [-1, 6, 10], [["w"], ["c"], ["d"]]⟩] ∧
    (find_overlap_window (organize_streams
        [⟨"wii_board", "mocap", 1, 0, 0, none, [0, 5], [["a"], ["b"]]⟩,
         ⟨"kinect_cam", "mocap", 1, 0, 0, none, [6, 10], [["c"], ["d"]]⟩]).1).2 = true ∧
    (find_overlap_window (organize_streams
        [⟨"wii_board", "mocap", 1, 0, 0, none, [0, 5, 11], [["a"], ["b"], ["z"]]⟩,
         ⟨"kinect_cam", "mocap", 1, 0, 0, none, [-1, 6, 10], [["w"], ["c"], ["d"]]⟩]).1).2 =
      false := by
  refine ⟨?_, by decide, by decide⟩
  rfl

/-! ### C8: the perturbation dedup tolerance -/

/-- Recursion-friendly form of the `deduplicate_on_onset` fold. -/
def dedupAux (acc : List Pert) : List Pert → List Pert
  | [] => acc
  | e :: rest =>
    if (acc.any fun prev => npIsClose e.onset prev.onset) = true then dedupAux acc rest
    else dedupAux (acc ++ [e]) rest

theorem dedup_eq_dedupAux (evs acc : List Pert) :
    evs.foldl
      (fun ded ev =>
        if ded.any fun prev => npIsClose ev.onset prev.onset then ded
        else ded ++ [ev]) acc = dedupAux acc evs := by
  induction evs generalizing acc with
  | nil => rfl
  | cons e rest ih =>
    simp only [List.foldl_cons, dedupAux]
    by_cases hdup : (acc.any fun prev => npIsClose e.onset prev.onset) = true
    · rw [if_pos hdup, if_pos hdup, ih]
    · rw [if_neg hdup, if_neg hdup, ih]

theorem deduplicate_on_onset_eq (evs : List Pert) :
    deduplicate_on_onset evs = dedupAux [] evs :=
  dedup_eq_dedupAux evs []

theorem dedupAux_mono (evs : List Pert) :
    ∀ acc, ∃ d, dedupAux acc evs = acc ++ d ∧ d.Sublist evs := by
  induction evs with
  | nil => exact fun acc => ⟨[], by simp [dedupAux]⟩
  | cons e rest ih =>
    intro acc
    by_cases hdup : (acc.any fun prev => npIsClose e.onset prev.onset) = true
    · rcases ih acc with ⟨d, hd, hsub⟩
      exact ⟨d, by rw [dedupAux, if_pos hdup, hd], hsub.cons _⟩
    · rcases ih (acc ++ [e]) with ⟨d, hd, hsub⟩
      refine ⟨e :: d, ?_, hsub.cons₂ _⟩
      rw [dedupAux, if_neg hdup, hd, List.append_assoc]
      rfl

theorem dedupAux_covers (evs : List Pert) :
    ∀ acc, ∀ ev ∈ evs, ev ∈ dedupAux acc evs ∨
      ∃ prev ∈ dedupAux acc evs, npIsClose ev.onset prev.onset = true := by
  induction evs with
  | nil => intro acc ev hev; cases hev
  | cons e rest ih =>
    intro acc ev hev
    by_cases hdup : (acc.any fun prev => npIsClose e.onset prev.onset) = true
    · rw [dedupAux, if_pos hdup]
      rcases List.mem_cons.mp hev with rfl | hev2
      · rcases List.any_eq_true.mp hdup with ⟨prev, hprev, hclose⟩
        rcases dedupAux_mono rest acc with ⟨d, hd, _⟩
        exact Or.inr ⟨prev, by rw [hd]; exact List.mem_append_left _ hprev, hclose⟩
      · exact ih acc ev hev2
    · rw [dedupAux, if_neg hdup]
      rcases List.mem_cons.mp hev with rfl | hev2
      · rcases dedupAux_mono rest (acc ++ [ev]) with ⟨d, hd, _⟩
        refine Or.inl ?_
        rw [hd]
        exact List.mem_append_left _ (List.mem_append_right _ (List.mem_singleton.mpr rfl))
      · exact ih (acc ++ [e]) ev hev2

theorem dedupAux_pairwise (evs : List Pert) :
    ∀ acc, acc.Pairwise (fun p q => npIsClose q.onset p.onset = false) →
      (dedupAux acc evs).Pairwise (fun p q => npIsClose q.onset p.onset = false) := by
  induction evs with
  | nil => intro acc hacc; exact hacc
  | cons e rest ih =>
    intro acc hacc
    by_cases hdup : (acc.any fun prev => npIsClose e.onset prev.onset) = true
    · rw [dedupAux, if_pos hdup]
      exact ih acc hacc
    · rw [dedupAux, if_neg hdup]
      refine ih (acc ++ [e]) ?_
      rw [List.pairwise_append]
      refine ⟨hacc, List.pairwise_singleton _ _, ?_⟩
      intro a ha b hb
      rw [List.mem_singleton] at hb
      subst hb
      by_contra hne
      exact hdup (List.any_eq_true.mpr
        ⟨a, ha, by simpa [Bool.not_eq_false] using hne⟩)

theorem npIsClose_iff (a b : ℚ) :
    npIsClose a b = true ↔ |a - b| ≤ 1 / 100000 + 1 / 100000 * |b| := by
  simp [npIsClose]

/-- C8 (amended): in `deduplicate_on_onset` two onsets count as duplicates
exactly when `|a − b| ≤ atol + rtol·|b|` with `atol = 1e-5` and numpy's
*default* `rtol = 1e-5` left in force — so the test scales with the
magnitude of the already-kept onset `b`, not only with the absolute
difference.  The first occurrence (in the ascending order the caller
established) is the one kept: the result is a subsequence of the input, each
dropped event is close, in that magnitude-dependent sense, to some kept
event, and no two kept events are close to each other. -/
theorem deduplicate_on_onset_tolerance (evs : List Pert) :
    (deduplicate_on_onset evs).Sublist evs ∧
    (∀ ev ∈ evs, ev ∈ deduplicate_on_onset evs ∨
      ∃ prev ∈ deduplicate_on_onset evs,
        |ev.onset - prev.onset| ≤ 1 / 100000 + 1 / 100000 * |prev.onset|) ∧
    (deduplicate_on_onset evs).Pairwise
      (fun prev ev => ¬ (|ev.onset - prev.onset| ≤
        1 / 100000 + 1 / 100000 * |prev.onset|)) := by
  rw [deduplicate_on_onset_eq]
  refine ⟨?_, ?_, ?_⟩
  · rcases dedupAux_mono evs [] with ⟨d, hd, hsub⟩
    rw [hd]
    simpa using hsub
  · intro ev hev
    rcases dedupAux_covers evs [] ev hev with h | ⟨prev, hprev, hclose⟩
    · exact Or.inl h
    · exact Or.inr ⟨prev, hprev, (npIsClose_iff _ _).mp hclose⟩
  · have h := dedupAux_pairwise evs [] (List.Pairwise.nil)
    refine h.imp ?_
    intro a b hab
    rw [← npIsClose_iff]
    simp [hab]

/-- C8 witness instance: onsets `0` and `2` are not close, so the onset-`2`
event is kept (it is its own representative). -/
theorem deduplicate_on_onset_tolerance_witness :
    (⟨2, 0, "perturbation_start", "m"⟩ : Pert) ∈
      [⟨0, 0, "perturbation_start", "m"⟩, (⟨2, 0, "perturbation_start", "m"⟩ : Pert)] ∧
    ((⟨2, 0, "perturbation_start", "m"⟩ : Pert) ∈
      deduplicate_on_onset
        [⟨0, 0, "perturbation_start", "m"⟩, ⟨2, 0, "perturbation_start", "m"⟩] ∨
      ∃ prev ∈ deduplicate_on_onset
          [⟨0, 0, "perturbation_start", "m"⟩, ⟨2, 0, "perturbation_start", "m"⟩],
        |((⟨2, 0, "perturbation_start", "m"⟩ : Pert)).onset - prev.onset| ≤
          1 / 100000 + 1 / 100000 * |prev.onset|) :=
  ⟨by simp,
    (deduplicate_on_onset_tolerance
        [⟨0, 0, "perturbation_start", "m"⟩, ⟨2, 0, "perturbation_start", "m"⟩]).2.1
      ⟨2, 0, "perturbation_start", "m"⟩ (by simp)⟩

/-- C8 counterexample to the original claim: onsets `100` and `200001/2000 =
100.0005` differ by `5·10⁻⁴ > 10⁻⁵`, yet `deduplicate_on_onset` treats them
as duplicates and drops the second, because the effective tolerance at
magnitude 100 is `1e-5 + 1e-5·100`. -/
theorem deduplicate_on_onset_not_absolute :
    deduplicate_on_onset
        [⟨100, 0, "perturbation_start", "m"⟩,
         ⟨200001 / 2000, 0, "perturbation_start", "m"⟩] =
      [⟨100, 0, "perturbation_start", "m"⟩] ∧
    ¬ (|(200001 / 2000 : ℚ) - 100| ≤ 1 / 100000) := by
  have habs : |(200001 / 2000 : ℚ) - 100| = 1 / 2000 := by
    rw [show (200001 / 2000 : ℚ) - 100 = 1 / 2000 by norm_num,
      abs_of_nonneg (by norm_num : (0 : ℚ) ≤ 1 / 2000)]
  constructor
  · have hclose : npIsClose (200001 / 2000) 100 = true := by
      rw [npIsClose_iff, habs, abs_of_nonneg (by norm_num : (0 : ℚ) ≤ 100)]
      norm_num
    rw [deduplicate_on_onset_eq]
    show dedupAux [] _ = _
    rw [dedupAux, if_neg (by simp), dedupAux]
    rw [if_pos (by simp [hclose]), dedupAux]
    rfl
  · rw [habs]
    norm_num

/-! ### C2: perturbation pairing under count mismatch -/

/-- C2: after partitioning, sorting, and deduplication, `n+1` start events
and `n` end events (exactly one orphan start) yield exactly `n+1`
perturbations paired index-for-index in ascending-onset order: perturbation
`i` starts at `start[i].onset` with duration `end[i].onset − start[i].onset`
for `i < n`, and the last one starts at the last start's onset with duration
`0`; any other nonzero count mismatch yields an empty perturbation list
(with a logged warning, never a fatal error). -/
theorem perturbation_pairing :
    (∀ (events : List Event) (n : ℕ),
      (pertStarts events).length = n + 1 →
      (pertEnds events).length = n →
      (extract_perturbations_from_events events).length = n + 1 ∧
      (∀ i, i < n →
        ∃ s e p, (pertStarts events)[i]? = some s ∧
          (pertEnds events)[i]? = some e ∧
          (extract_perturbations_from_events events)[i]? = some p ∧
          p.onset = s.onset ∧ p.duration = e.onset - s.onset) ∧
      (∃ s p, (pertStarts events)[n]? = some s ∧
        (extract_perturbations_from_events events)[n]? = some p ∧
        p.onset = s.onset ∧ p.duration = 0)) ∧
    (∀ events : List Event,
      (pertStarts events).length ≠ (pertEnds events).length →
      (pertStarts events).length ≠ (pertEnds events).length + 1 →
      extract_perturbations_from_events events = []) := by
  constructor
  · intro events n hs he
    have hne : ¬ (pertStarts events).length = (pertEnds events).length := by
      rw [hs, he]; omega
    have heq1 : (pertStarts events).length = (pertEnds events).length + 1 := by
      rw [hs, he]
    have hn_lt : n < (pertStarts events).length := by omega
    have hgetn : (pertStarts events)[n]? = some (((pertStarts events).get ⟨n, hn_lt⟩)) := by
      rw [List.getElem?_eq_getElem hn_lt, List.get_eq_getElem]
    have hlast : (pertStarts events).getLast? =
        some (((pertStarts events).get ⟨n, hn_lt⟩)) := by
      rw [List.getLast?_eq_getElem?]
      have hidx : (pertStarts events).length - 1 = n := by omega
      rw [hidx]
      exact hgetn
    have hext : extract_perturbations_from_events events =
        List.zipWith pertPair (pertStarts events)
          (pertEnds events ++ [((pertStarts events).get ⟨n, hn_lt⟩)]) := by
      rw [extract_perturbations_from_events, if_neg hne, if_pos heq1, hlast]
    have hlen : (extract_perturbations_from_events events).length = n + 1 := by
      rw [hext, List.length_zipWith, List.length_append]
      simp only [List.length_singleton]
      omega
    refine ⟨hlen, ?_, ?_⟩
    · intro i hi
      have hiS : i < (pertStarts events).length := by omega
      have hiE : i < (pertEnds events).length := by omega
      refine ⟨((pertStarts events).get ⟨i, hiS⟩), ((pertEnds events).get ⟨i, hiE⟩),
        pertPair (((pertStarts events).get ⟨i, hiS⟩)) (((pertEnds events).get ⟨i, hiE⟩)),
        ?_, ?_, ?_, rfl, rfl⟩
      · rw [List.getElem?_eq_getElem hiS, List.get_eq_getElem]
      · rw [List.getElem?_eq_getElem hiE, List.get_eq_getElem]
      · rw [hext, List.getElem?_zipWith, List.getElem?_eq_getElem hiS,
          List.getElem?_append, if_pos hiE, List.getElem?_eq_getElem hiE,
          List.get_eq_getElem, List.get_eq_getElem]
    · refine ⟨((pertStarts events).get ⟨n, hn_lt⟩),
        pertPair (((pertStarts events).get ⟨n, hn_lt⟩)) (((pertStarts events).get ⟨n, hn_lt⟩)),
        hgetn, ?_, rfl, sub_self _⟩
      have hconcat : (pertEnds events ++ [((pertStarts events).get ⟨n, hn_lt⟩)])[n]? =
          some (((pertStarts events).get ⟨n, hn_lt⟩)) := by
        have hnlt : ¬ n < (pertEnds events).length := by omega
        have hsub0 : n - (pertEnds events).length = 0 := by omega
        rw [List.getElem?_append, if_neg hnlt, hsub0]
        rfl
      rw [hext, List.getElem?_zipWith, hgetn, hconcat]
  · intro events h1 h2
    rw [extract_perturbations_from_events, if_neg h1, if_neg h2]

/-- Closed form of `npIsClose a b = false` for concrete nonnegative data. -/
theorem npIsClose_false_of (a b : ℚ) (hab : 0 ≤ a - b) (hb : 0 ≤ b)
    (h : 1 / 100000 + 1 / 100000 * b < a - b) : npIsClose a b = false := by
  rw [npIsClose, decide_eq_false_iff_not, abs_of_nonneg hab, abs_of_nonneg hb]
  exact not_le.mpr h

theorem pertStarts_example :
    pertStarts
        [⟨1, 0, "perturbation_start", "m", "l1"⟩,
         ⟨2, 0, "perturbation_end", "m", "l2"⟩,
         ⟨3, 0, "perturbation_start", "m", "l3"⟩,
         ⟨4, 0, "perturbation_end", "m", "l4"⟩,
         ⟨5, 0, "perturbation_start", "m", "l5"⟩] =
      [⟨1, 0, "perturbation_start", "m"⟩, ⟨3, 0, "perturbation_start", "m"⟩,
       ⟨5, 0, "perturbation_start", "m"⟩] := by
  have h31 : npIsClose 3 1 = false :=
    npIsClose_false_of 3 1 (by norm_num) (by norm_num) (by norm_num)
  have h51 : npIsClose 5 1 = false :=
    npIsClose_false_of 5 1 (by norm_num) (by norm_num) (by norm_num)
  have h53 : npIsClose 5 3 = false :=
    npIsClose_false_of 5 3 (by norm_num) (by norm_num) (by norm_num)
  rw [pertStarts, deduplicate_on_onset_eq]
  have hsort : sortOnQ Pert.onset
      ((List.filter isPertStart
        [⟨1, 0, "perturbation_start", "m", "l1"⟩,
         ⟨2, 0, "perturbation_end", "m", "l2"⟩,
         ⟨3, 0, "perturbation_start", "m", "l3"⟩,
         ⟨4, 0, "perturbation_end", "m", "l4"⟩,
         ⟨5, 0, "perturbation_start", "m", "l5"⟩]).map pertOf) =
      [⟨1, 0, "perturbation_start", "m"⟩, ⟨3, 0, "perturbation_start", "m"⟩,
       ⟨5, 0, "perturbation_start", "m"⟩] := by decide
  rw [hsort]
  rw [dedupAux, if_neg (by simp), dedupAux, if_neg (by simp [h31]),
    dedupAux, if_neg (by simp [h51, h53]), dedupAux]
  rfl

theorem pertEnds_example :
    pertEnds
        [⟨1, 0, "perturbation_start", "m", "l1"⟩,
         ⟨2, 0, "perturbation_end", "m", "l2"⟩,
         ⟨3, 0, "perturbation_start", "m", "l3"⟩,
         ⟨4, 0, "perturbation_end", "m", "l4"⟩,
         ⟨5, 0, "perturbation_start", "m", "l5"⟩] =
      [⟨2, 0, "perturbation_end", "m"⟩, ⟨4, 0, "perturbation_end", "m"⟩] := by
  have h42 : npIsClose 4 2 = false :=
    npIsClose_false_of 4 2 (by norm_num) (by norm_num) (by norm_num)
  rw [pertEnds, deduplicate_on_onset_eq]
  have hsort : sortOnQ Pert.onset
      ((List.filter isPertEnd
        [⟨1, 0, "perturbation_start", "m", "l1"⟩,
         ⟨2, 0, "perturbation_end", "m", "l2"⟩,
         ⟨3, 0, "perturbation_start", "m", "l3"⟩,
         ⟨4, 0, "perturbation_end", "m", "l4"⟩,
         ⟨5, 0, "perturbation_start", "m", "l5"⟩]).map pertOf) =
      [⟨2, 0, "perturbation_end", "m"⟩, ⟨4, 0, "perturbation_end", "m"⟩] := by decide
  rw [hsort]
  rw [dedupAux, if_neg (by simp), dedupAux, if_neg (by simp [h42]), dedupAux]
  rfl

/-- C2 witness instance: three starts (onsets 1, 3, 5) and two ends (onsets
2, 4) — one orphan start — produce three index-paired perturbations, the
last with duration 0. -/
theorem perturbation_pairing_witness :
    ((pertStarts
        [⟨1, 0, "perturbation_start", "m", "l1"⟩,
         ⟨2, 0, "perturbation_end", "m", "l2"⟩,
         ⟨3, 0, "perturbation_start", "m", "l3"⟩,
         ⟨4, 0, "perturbation_end", "m", "l4"⟩,
         ⟨5, 0, "perturbation_start", "m", "l5"⟩]).length = 2 + 1 ∧
      (pertEnds
        [⟨1, 0, "perturbation_start", "m", "l1"⟩,
         ⟨2, 0, "perturbation_end", "m", "l2"⟩,
         ⟨3, 0, "perturbation_start", "m", "l3"⟩,
         ⟨4, 0, "perturbation_end", "m", "l4"⟩,
         ⟨5, 0, "perturbation_start", "m", "l5"⟩]).length = 2) ∧
    ((extract_perturbations_from_events
        [⟨1, 0, "perturbation_start", "m", "l1"⟩,
         ⟨2, 0, "perturbation_end", "m", "l2"⟩,
         ⟨3, 0, "perturbation_start", "m", "l3"⟩,
         ⟨4, 0, "perturbation_end", "m", "l4"⟩,
         ⟨5, 0, "perturbation_start", "m", "l5"⟩]).length = 2 + 1 ∧
      (∀ i, i < 2 →
        ∃ s e p, (pertStarts
            [⟨1, 0, "perturbation_start", "m", "l1"⟩,
             ⟨2, 0, "perturbation_end", "m", "l2"⟩,
             ⟨3, 0, "perturbation_start", "m", "l3"⟩,
             ⟨4, 0, "perturbation_end", "m", "l4"⟩,
             ⟨5, 0, "perturbation_start", "m", "l5"⟩])[i]? = some s ∧
          (pertEnds
            [⟨1, 0, "perturbation_start", "m", "l1"⟩,
             ⟨2, 0, "perturbation_end", "m", "l2"⟩,
             ⟨3, 0, "perturbation_start", "m", "l3"⟩,
             ⟨4, 0, "perturbation_end", "m", "l4"⟩,
             ⟨5, 0, "perturbation_start", "m", "l5"⟩])[i]? = some e ∧
          (extract_perturbations_from_events
            [⟨1, 0, "perturbation_start", "m", "l1"⟩,
             ⟨2, 0, "perturbation_end", "m", "l2"⟩,
             ⟨3, 0, "perturbation_start", "m", "l3"⟩,
             ⟨4, 0, "perturbation_end", "m", "l4"⟩,
             ⟨5, 0, "perturbation_start", "m", "l5"⟩])[i]? = some p ∧
          p.onset = s.onset ∧ p.duration = e.onset - s.onset) ∧
      (∃ s p, (pertStarts
          [⟨1, 0, "perturbation_start", "m", "l1"⟩,
           ⟨2, 0, "perturbation_end", "m", "l2"⟩,
           ⟨3, 0, "perturbation_start", "m", "l3"⟩,
           ⟨4, 0, "perturbation_end", "m", "l4"⟩,
           ⟨5, 0, "perturbation_start", "m", "l5"⟩])[2]? = some s ∧
        (extract_perturbations_from_events
          [⟨1, 0, "perturbation_start", "m", "l1"⟩,
           ⟨2, 0, "perturbation_end", "m", "l2"⟩,
           ⟨3, 0, "perturbation_start", "m", "l3"⟩,
           ⟨4, 0, "perturbation_end", "m", "l4"⟩,
           ⟨5, 0, "perturbation_start", "m", "l5"⟩])[2]? = some p ∧
        p.onset = s.onset ∧ p.duration = 0)) :=
  ⟨⟨by rw [pertStarts_example]; rfl, by rw [pertEnds_example]; rfl⟩,
    perturbation_pairing.1
      [⟨1, 0, "perturbation_start", "m", "l1"⟩,
       ⟨2, 0, "perturbation_end", "m", "l2"⟩,
       ⟨3, 0, "perturbation_start", "m", "l3"⟩,
       ⟨4, 0, "perturbation_end", "m", "l4"⟩,
       ⟨5, 0, "perturbation_start", "m", "l5"⟩] 2
      (by rw [pertStarts_example]; rfl) (by rw [pertEnds_example]; rfl)⟩

/-! ### C7: event deduplication and ordering -/

/-- Recursion-friendly form of the `dedupByKey` fold. -/
def dedupKeyAux {α κ : Type} [DecidableEq κ] (key : α → κ) (acc : List α) :
    List α → List α
  | [] => acc
  | e :: rest =>
    if (acc.any fun p => key p = key e) = true then dedupKeyAux key acc rest
    else dedupKeyAux key (acc ++ [e]) rest

theorem dedupByKey_eq_aux {α κ : Type} [DecidableEq κ] (key : α → κ)
    (l acc : List α) :
    l.foldl (fun acc e => if acc.any fun p => key p = key e then acc
      else acc ++ [e]) acc = dedupKeyAux key acc l := by
  induction l generalizing acc with
  | nil => rfl
  | cons e rest ih =>
    simp only [List.foldl_cons, dedupKeyAux]
    by_cases hdup : (acc.any fun p => key p = key e) = true
    · rw [if_pos hdup, if_pos hdup, ih]
    · rw [if_neg hdup, if_neg hdup, ih]

theorem dedupByKey_eq {α κ : Type} [DecidableEq κ] (key : α → κ) (l : List α) :
    dedupByKey key l = dedupKeyAux key [] l :=
  dedupByKey_eq_aux key l []

theorem dedupKeyAux_mono {α κ : Type} [DecidableEq κ] (key : α → κ)
    (l : List α) : ∀ acc, ∃ d, dedupKeyAux key acc l = acc ++ d ∧ d.Sublist l := by
  induction l with
  | nil => exact fun acc => ⟨[], by simp [dedupKeyAux]⟩
  | cons e rest ih =>
    intro acc
    by_cases hdup : (acc.any fun p => key p = key e) = true
    · rcases ih acc with ⟨d, hd, hsub⟩
      exact ⟨d, by rw [dedupKeyAux, if_pos hdup, hd], hsub.cons _⟩
    · rcases ih (acc ++ [e]) with ⟨d, hd, hsub⟩
      refine ⟨e :: d, ?_, hsub.cons₂ _⟩
      rw [dedupKeyAux, if_neg hdup, hd, List.append_assoc]
      rfl

theorem dedupKeyAux_covers {α κ : Type} [DecidableEq κ] (key : α → κ)
    (l : List α) : ∀ acc, ∀ e ∈ l,
      ∃ e2 ∈ dedupKeyAux key acc l, key e2 = key e := by
  induction l with
  | nil => intro acc e he; cases he
  | cons e rest ih =>
    intro acc ev hev
    by_cases hdup : (acc.any fun p => key p = key e) = true
    · rw [dedupKeyAux, if_pos hdup]
      rcases List.mem_cons.mp hev with rfl | hev2
      · rcases List.any_eq_true.mp hdup with ⟨p, hp, hkey⟩
        rcases dedupKeyAux_mono key rest acc with ⟨d, hd, _⟩
        refine ⟨p, by rw [hd]; exact List.mem_append_left _ hp, ?_⟩
        simpa using hkey
      · exact ih acc ev hev2
    · rw [dedupKeyAux, if_neg hdup]
      rcases List.mem_cons.mp hev with rfl | hev2
      · rcases dedupKeyAux_mono key rest (acc ++ [ev]) with ⟨d, hd, _⟩
        refine ⟨ev, ?_, rfl⟩
        rw [hd]
        exact List.mem_append_left _
          (List.mem_append_right _ (List.mem_singleton.mpr rfl))
      · exact ih (acc ++ [e]) ev hev2

theorem dedupKeyAux_nodup {α κ : Type} [DecidableEq κ] (key : α → κ)
    (l : List α) : ∀ acc, ((acc.map key).Nodup) →
      ((dedupKeyAux key acc l).map key).Nodup := by
  induction l with
  | nil => intro acc hacc; exact hacc
  | cons e rest ih =>
    intro acc hacc
    by_cases hdup : (acc.any fun p => key p = key e) = true
    · rw [dedupKeyAux, if_pos hdup]
      exact ih acc hacc
    · rw [dedupKeyAux, if_neg hdup]
      refine ih (acc ++ [e]) ?_
      rw [List.map_append, List.nodup_append]
      refine ⟨hacc, by simp, ?_⟩
      intro k hk
      rcases List.mem_map.mp hk with ⟨p, hp, hkp⟩
      simp only [List.map_cons, List.map_nil, List.mem_singleton]
      intro hke
      exact hdup (List.any_eq_true.mpr ⟨p, hp, by simp [hkp, hke]⟩)

theorem sortOnQ_perm {α : Type} (key : α → ℚ) (l : List α) :
    (sortOnQ key l).Perm l :=
  List.perm_insertionSort _ l

theorem sortOnQ_pairwise {α : Type} (key : α → ℚ) (l : List α) :
    (sortOnQ key l).Pairwise fun a b => key a ≤ key b := by
  haveI : IsTotal α fun a b => key a ≤ key b := ⟨fun a b => le_total _ _⟩
  haveI : IsTrans α fun a b => key a ≤ key b := ⟨fun _ _ _ h h2 => le_trans h h2⟩
  exact List.sorted_insertionSort _ l

/-- C7: `_extract_events` collapses rows that agree on the dedup key
`(label, onset rounded to 3 decimals)`, keeping exactly one representative
per key group (the output's keys are duplicate-free, every output row is an
input row, and every input row has a key-equal representative), and the
returned sequence is non-decreasing in onset for every input, including
out-of-order marker streams. -/
theorem extract_events_dedup_sorted (marker_streams : List XStream) :
    List.Pairwise (fun a b => a.onset ≤ b.onset) (extract_events marker_streams) ∧
    ((extract_events marker_streams).map evKey).Nodup ∧
    (∀ e ∈ extract_events marker_streams, e ∈ rawEvents marker_streams) ∧
    (∀ e ∈ rawEvents marker_streams,
      ∃ e2 ∈ extract_events marker_streams, evKey e2 = evKey e) := by
  have hperm : (extract_events marker_streams).Perm
      (dedupByKey evKey (rawEvents marker_streams)) :=
    sortOnQ_perm _ _
  refine ⟨sortOnQ_pairwise _ _, ?_, ?_, ?_⟩
  · have hnd : ((dedupByKey evKey (rawEvents marker_streams)).map evKey).Nodup := by
      rw [dedupByKey_eq]
      exact dedupKeyAux_nodup evKey (rawEvents marker_streams) [] (by simp)
    exact ((hperm.map evKey).nodup_iff).mpr hnd
  · intro e he
    have he2 : e ∈ dedupByKey evKey (rawEvents marker_streams) :=
      hperm.mem_iff.mp he
    rw [dedupByKey_eq] at he2
    rcases dedupKeyAux_mono evKey (rawEvents marker_streams) [] with ⟨d, hd, hsub⟩
    rw [hd] at he2
    exact hsub.mem (by simpa using he2)
  · intro e he
    rw [dedupByKey_eq] at hperm
    rcases dedupKeyAux_covers evKey (rawEvents marker_streams) [] e he with
      ⟨e2, he2, hkey⟩
    exact ⟨e2, hperm.mem_iff.mpr he2, hkey⟩

/-- C7 witness instance: one marker stream delivering samples out of
chronological order; the event at onset `2` is a raw event with a key-equal
representative in the extracted (sorted, deduplicated) sequence. -/
theorem extract_events_dedup_sorted_witness :
    (⟨2, 0, "b", "markers", "b"⟩ : Event) ∈
      rawEvents [⟨"markers", "marker", 1, 0, 0, none, [2, 1], [["b"], ["a"]]⟩] ∧
    ∃ e2 ∈ extract_events
        [⟨"markers", "marker", 1, 0, 0, none, [2, 1], [["b"], ["a"]]⟩],
      evKey e2 = evKey (⟨2, 0, "b", "markers", "b"⟩ : Event) :=
  ⟨by decide,
    (extract_events_dedup_sorted
        [⟨"markers", "marker", 1, 0, 0, none, [2, 1], [["b"], ["a"]]⟩]).2.2.2
      ⟨2, 0, "b", "markers", "b"⟩ (by decide)⟩

/-! ### C3: trial reconstruction -/

theorem upsertTrial_absent (acc : List Trial) (t : Trial)
    (h : ¬ (acc.any fun u => u.trial_number = t.trial_number) = true) :
    upsertTrial acc t = acc ++ [t] := by
  rw [upsertTrial, if_neg h]

theorem upsertTrial_present (acc : List Trial) (t : Trial)
    (h : (acc.any fun u => u.trial_number = t.trial_number) = true) :
    upsertTrial acc t = acc.map fun u =>
      if u.trial_number = t.trial_number then
        (if t.onset > u.onset then t else u) else u := by
  rw [upsertTrial, if_pos h]

theorem upsertTrial_keys (acc : List Trial) (t : Trial)
    (h : (acc.any fun u => u.trial_number = t.trial_number) = true) :
    (upsertTrial acc t).map Trial.trial_number = acc.map Trial.trial_number := by
  rw [upsertTrial_present acc t h, List.map_map]
  refine List.map_congr_left ?_
  intro u _
  by_cases hu : u.trial_number = t.trial_number
  · by_cases ho : t.onset > u.onset <;> simp [hu, ho, Function.comp]
  · simp [hu, Function.comp]

theorem upsert_fold_inv (cs : List Trial) :
    ∀ seen acc : List Trial,
      ((acc.map Trial.trial_number).Nodup) →
      (∀ t ∈ acc, t ∈ seen ∧
        ∀ c ∈ seen, c.trial_number = t.trial_number → c.onset ≤ t.onset) →
      (∀ c ∈ seen, ∃ t ∈ acc, t.trial_number = c.trial_number) →
      (((cs.foldl upsertTrial acc).map Trial.trial_number).Nodup) ∧
      (∀ t ∈ cs.foldl upsertTrial acc, t ∈ seen ++ cs ∧
        ∀ c ∈ seen ++ cs, c.trial_number = t.trial_number → c.onset ≤ t.onset) ∧
      (∀ c ∈ seen ++ cs, ∃ t ∈ cs.foldl upsertTrial acc,
        t.trial_number = c.trial_number) := by
  induction cs with
  | nil =>
    intro seen acc hnd hdom hcov
    refine ⟨hnd, ?_, ?_⟩
    · intro t ht
      rcases hdom t ht with ⟨hmem, hd⟩
      exact ⟨by simpa using hmem, fun c hc => hd c (by simpa using hc)⟩
    · intro c hc
      exact hcov c (by simpa using hc)
  | cons c cs ih =>
    intro seen acc hnd hdom hcov
    have hstep : (c :: cs).foldl upsertTrial acc = cs.foldl upsertTrial (upsertTrial acc c) :=
      List.foldl_cons _ _
    rw [hstep]
    have hmain := ih (seen ++ [c]) (upsertTrial acc c) ?hnd ?hdom ?hcov
    case hnd =>
      by_cases hdup : (acc.any fun u => u.trial_number = c.trial_number) = true
      · rw [upsertTrial_keys acc c hdup]
        exact hnd
      · rw [upsertTrial_absent acc c hdup, List.map_append, List.nodup_append]
        refine ⟨hnd, by simp, ?_⟩
        intro k hk
        rcases List.mem_map.mp hk with ⟨u, hu, hku⟩
        simp only [List.map_cons, List.map_nil, List.mem_singleton]
        intro hkc
        exact hdup (List.any_eq_true.mpr ⟨u, hu, by simp [hku, hkc]⟩)
    case hdom =>
      by_cases hdup : (acc.any fun u => u.trial_number = c.trial_number) = true
      · rw [upsertTrial_present acc c hdup]
        intro t ht
        rcases List.mem_map.mp ht with ⟨u, hu, hphi⟩
        rcases hdom u hu with ⟨humem, hudom⟩
        by_cases hkey : u.trial_number = c.trial_number
        · by_cases ho : c.onset > u.onset
          · have ht_eq : t = c := by rw [← hphi]; simp [hkey, ho]
            subst ht_eq
            refine ⟨List.mem_append_right _ (List.mem_singleton.mpr rfl), ?_⟩
            intro s hs hsnum
            rcases List.mem_append.mp hs with hs2 | hs2
            · have : s.onset ≤ u.onset := hudom s hs2 (by rw [hsnum, ← hkey])
              exact le_of_lt (lt_of_le_of_lt this ho)
            · rw [List.mem_singleton.mp hs2]
          · have ht_eq : t = u := by rw [← hphi]; simp [hkey, ho]
            subst ht_eq
            refine ⟨List.mem_append_left _ humem, ?_⟩
            intro s hs hsnum
            rcases List.mem_append.mp hs with hs2 | hs2
            · exact hudom s hs2 hsnum
            · rw [List.mem_singleton.mp hs2]
              exact le_of_not_lt ho
        · have ht_eq : t = u := by rw [← hphi]; simp [hkey]
          subst ht_eq
          refine ⟨List.mem_append_left _ humem, ?_⟩
          intro s hs hsnum
          rcases List.mem_append.mp hs with hs2 | hs2
          · exact hudom s hs2 hsnum
          · rw [List.mem_singleton.mp hs2] at hsnum ⊢
            exact absurd hsnum.symm hkey
      · rw [upsertTrial_absent acc c hdup]
        intro t ht
        rcases List.mem_append.mp ht with ht2 | ht2
        · rcases hdom t ht2 with ⟨hmem, hd⟩
          refine ⟨List.mem_append_left _ hmem, ?_⟩
          intro s hs hsnum
          rcases List.mem_append.mp hs with hs2 | hs2
          · exact hd s hs2 hsnum
          · rw [List.mem_singleton.mp hs2] at hsnum
            exact absurd (List.any_eq_true.mpr ⟨t, ht2, by simp [hsnum]⟩) hdup
        · rw [List.mem_singleton.mp ht2]
          refine ⟨List.mem_append_right _ (List.mem_singleton.mpr rfl), ?_⟩
          intro s hs hsnum
          rcases List.mem_append.mp hs with hs2 | hs2
          · rcases hcov s hs2 with ⟨u, hu, hun⟩
            exact absurd (List.any_eq_true.mpr ⟨u, hu, by simp [hun, hsnum]⟩) hdup
          · rw [List.mem_singleton.mp hs2]
    case hcov =>
      intro s hs
      by_cases hdup : (acc.any fun u => u.trial_number = c.trial_number) = true
      · rw [upsertTrial_present acc c hdup]
        rcases List.mem_append.mp hs with hs2 | hs2
        · rcases hcov s hs2 with ⟨u, hu, hun⟩
          refine ⟨(fun u => if u.trial_number = c.trial_number then
              (if c.onset > u.onset then c else u) else u) u, List.mem_map_of_mem _ hu, ?_⟩
          by_cases hkey : u.trial_number = c.trial_number
          · by_cases ho : c.onset > u.onset <;> simp [hkey, ho, ← hun, hkey]
          · have hkey2 : ¬ s.trial_number = c.trial_number := by
              rw [← hun]; exact hkey
            simp [hkey, hkey2, hun]
        · rw [List.mem_singleton.mp hs2]
          rcases List.any_eq_true.mp hdup with ⟨u, hu, hun⟩
          have hun2 : u.trial_number = c.trial_number := by simpa using hun
          refine ⟨(fun u => if u.trial_number = c.trial_number then
              (if c.onset > u.onset then c else u) else u) u, List.mem_map_of_mem _ hu, ?_⟩
          by_cases ho : c.onset > u.onset <;> simp [hun2, ho]
      · rw [upsertTrial_absent acc c hdup]
        rcases List.mem_append.mp hs with hs2 | hs2
        · rcases hcov s hs2 with ⟨u, hu, hun⟩
          exact ⟨u, List.mem_append_left _ hu, hun⟩
        · rw [List.mem_singleton.mp hs2]
          exact ⟨c, List.mem_append_right _ (List.mem_singleton.mpr rfl), rfl⟩
    · rcases hmain with ⟨h1, h2, h3⟩
      refine ⟨h1, ?_, ?_⟩
      · intro t ht
        rcases h2 t ht with ⟨hmem, hd⟩
        refine ⟨by simpa [List.append_assoc] using hmem, ?_⟩
        intro s hs hsnum
        exact hd s (by simpa [List.append_assoc] using hs) hsnum
      · intro s hs
        exact h3 s (by simpa [List.append_assoc] using hs)

/-- C3: every `TRIAL_END`+duration event that parses contributes the
candidate trial `{onset = onset − duration, duration, trial_type =
"trial_<n>", trial_number = n}`; the final table retains, for each
`trial_number`, exactly one of its candidates — one with the latest computed
onset — and is sorted ascending by onset. -/
theorem extract_trials_spec (events : List Event) :
    (∀ e ∈ events, ∀ n d,
      substrOf "TRIAL_END:" e.event_type = true →
      substrOf ":duration=" e.event_type = true →
      parseTrialParts e.event_type = some (n, d) →
      (⟨e.onset - d, d, "trial_" ++ toString n, n⟩ : Trial) ∈ trialCandidates events) ∧
    (∀ t ∈ extract_trials_from_events events,
      t ∈ trialCandidates events ∧
      ∀ c ∈ trialCandidates events,
        c.trial_number = t.trial_number → c.onset ≤ t.onset) ∧
    (∀ c ∈ trialCandidates events,
      ∃ t ∈ extract_trials_from_events events,
        t.trial_number = c.trial_number) ∧
    ((extract_trials_from_events events).map Trial.trial_number).Nodup ∧
    List.Pairwise (fun a b => a.onset ≤ b.onset)
      (extract_trials_from_events events) := by
  have hperm : (extract_trials_from_events events).Perm
      ((trialCandidates events).foldl upsertTrial []) :=
    sortOnQ_perm _ _
  have hinv := upsert_fold_inv (trialCandidates events) [] []
    (by simp) (by simp) (by simp)
  rcases hinv with ⟨h1, h2, h3⟩
  refine ⟨?_, ?_, ?_, ?_, ?_⟩
  · intro e he n d hs1 hs2 hp
    have he2 : e ∈ sortOnQ Event.onset events := (sortOnQ_perm _ _).mem_iff.mpr he
    refine List.mem_filterMap.mpr ⟨e, he2, ?_⟩
    rw [if_pos (by rw [hs1, hs2]; rfl), hp]
    rfl
  · intro t ht
    have ht2 := hperm.mem_iff.mp ht
    rcases h2 t ht2 with ⟨hmem, hd⟩
    exact ⟨by simpa using hmem, fun c hc => hd c (by simpa using hc)⟩
  · intro c hc
    rcases h3 c (by simpa using hc) with ⟨t, ht, htn⟩
    exact ⟨t, hperm.mem_iff.mpr ht, htn⟩
  · exact ((hperm.map Trial.trial_number).nodup_iff).mpr h1
  · exact sortOnQ_pairwise _ _

/-- C3 witness instance: the duplicate-`trial_number` example — two
`TRIAL_END:3:...` events whose computed trial starts are `10` and `12`; the
second event's parsed candidate is emitted into the candidate list. -/
theorem extract_trials_spec_witness :
    ((⟨22, 0, "TRIAL_END:3:time=22:duration=10", "m", "l2"⟩ : Event) ∈
        [⟨20, 0, "TRIAL_END:3:time=20:duration=10", "m", "l1"⟩,
         (⟨22, 0, "TRIAL_END:3:time=22:duration=10", "m", "l2"⟩ : Event)] ∧
      substrOf "TRIAL_END:" "TRIAL_END:3:time=22:duration=10" = true ∧
      substrOf ":duration=" "TRIAL_END:3:time=22:duration=10" = true ∧
      parseTrialParts "TRIAL_END:3:time=22:duration=10" = some (3, 10)) ∧
    (⟨(22 : ℚ) - 10, 10, "trial_" ++ toString (3 : ℤ), 3⟩ : Trial) ∈
      trialCandidates
        [⟨20, 0, "TRIAL_END:3:time=20:duration=10", "m", "l1"⟩,
         ⟨22, 0, "TRIAL_END:3:time=22:duration=10", "m", "l2"⟩] :=
  ⟨⟨by decide, by decide, by decide, by decide⟩,
    (extract_trials_spec
        [⟨20, 0, "TRIAL_END:3:time=20:duration=10", "m", "l1"⟩,
         ⟨22, 0, "TRIAL_END:3:time=22:duration=10", "m", "l2"⟩]).1
      ⟨22, 0, "TRIAL_END:3:time=22:duration=10", "m", "l2"⟩ (by decide) 3 10
      (by decide) (by decide) (by decide)⟩

/-! ### C6: heap model of `copy.deepcopy` and the in-place rebase

`apply_relative_time_to_results` deep-copies the results dictionary and then
mutates the copy's nested dictionaries in place.  To verify that the
original bundle is never mutated we model the Python object graph
explicitly: dictionaries are heap cells addressed by naturals, values are
immutable data (numbers, strings, tuples, numpy arrays — none of which the
function mutates in place), lists of values, or references to cells. -/

/-- A Python value as stored in a dictionary slot.  The bundles built by
`process_data` contain exactly these shapes: scalars, strings, the
time-window tuple, numpy arrays, lists of strings (channel labels), lists
of dictionary references (the events/meta/trials/perturbations tables), and
references to nested dictionaries. -/
inductive HVal where
  | num (x : ℚ)
  | intv (n : ℤ)
  | str (s : String)
  | boolv (b : Bool)
  | tup (a b : ℚ)
  | arrQ (ts : List ℚ)
  | arrRows (rows : List (List String))
  | listStrs (ss : List String)
  | listRefs (as : List ℕ)
  | href (a : ℕ)
deriving DecidableEq, Repr

/-- The heap: dictionary cells, plus the next fresh address. -/
structure Heap where
  cells : List (ℕ × List (String × HVal))
  next : ℕ
deriving DecidableEq, Repr

def Heap.lookup (h : Heap) (a : ℕ) : Option (List (String × HVal)) :=
  (h.cells.find? fun c => c.1 = a).map (·.2)

def Heap.alloc (h : Heap) (d : List (String × HVal)) : Heap × ℕ :=
  (⟨h.cells ++ [(h.next, d)], h.next + 1⟩, h.next)

def Heap.update (h : Heap) (a : ℕ) (d : List (String × HVal)) : Heap :=
  ⟨h.cells.map fun c => if c.1 = a then (a, d) else c, h.next⟩

/-- Every allocated address is below `next`. -/
def Heap.WF (h : Heap) : Prop := ∀ c ∈ h.cells, c.1 < h.next

def dictGet (d : List (String × HVal)) (k : String) : Option HVal :=
  (d.find? (·.1 = k)).map (·.2)

/-- Python dict assignment: overwrite in place, else append. -/
def dictSet (d : List (String × HVal)) (k : String) (v : HVal) :
    List (String × HVal) :=
  if d.any (·.1 = k) then d.map fun e => if e.1 = k then (k, v) else e
  else d ++ [(k, v)]

/-- Addresses referenced from a value. -/
def valRefs : HVal → List ℕ
  | HVal.href a => [a]
  | HVal.listRefs as => as
  | _ => []

/-- Addresses referenced from a dictionary's values. -/
def dictRefs (d : List (String × HVal)) : List ℕ :=
  d.flatMap fun e => valRefs e.2

mutual

/-- `copy.deepcopy` on a value: references are replaced by references to
freshly allocated recursive copies.  Fuel-indexed (every recursive call
consumes fuel); `none` on fuel exhaustion or a dangling reference, neither
of which occurs for stored bundles with ample fuel.  (Python's memo-based
sharing preservation is immaterial here: bundles built by `storeResults`
are trees.) -/
def copyVal : ℕ → Heap → HVal → Option (Heap × HVal)
  | 0, _, _ => none
  | fuel + 1, h, HVal.href a =>
    match copyRef fuel h a with
    | none => none
    | some (h1, a1) => some (h1, HVal.href a1)
  | fuel + 1, h, HVal.listRefs as =>
    match copyRefs fuel h as with
    | none => none
    | some (h1, bs) => some (h1, HVal.listRefs bs)
  | _ + 1, h, v => some (h, v)

/-- Deep-copy the dictionary cell at `a`, returning the fresh address. -/
def copyRef : ℕ → Heap → ℕ → Option (Heap × ℕ)
  | 0, _, _ => none
  | fuel + 1, h, a =>
    match h.lookup a with
    | none => none
    | some d =>
      match copyDict fuel h d with
      | none => none
      | some (h1, d1) =>
        let p := h1.alloc d1
        some (p.1, p.2)

def copyDict : ℕ → Heap → List (String × HVal) →
    Option (Heap × List (String × HVal))
  | 0, _, _ => none
  | _ + 1, h, [] => some (h, [])
  | fuel + 1, h, e :: rest =>
    match copyVal fuel h e.2 with
    | none => none
    | some (h1, v1) =>
      match copyDict fuel h1 rest with
      | none => none
      | some (h2, r2) => some (h2, (e.1, v1) :: r2)

def copyRefs : ℕ → Heap → List ℕ → Option (Heap × List ℕ)
  | 0, _, _ => none
  | _ + 1, h, [] => some (h, [])
  | fuel + 1, h, a :: as =>
    match copyRef fuel h a with
    | none => none
    | some (h1, a1) =>
      match copyRefs fuel h1 as with
      | none => none
      | some (h2, bs) => some (h2, a1 :: bs)

end

/-- Rebase a `_timestamps` array value (`timestamps - global_t0` builds a
new array; only the dictionary slot is reassigned). -/
def rebaseStampsVal (t0 : ℚ) : HVal → HVal
  | HVal.arrQ ts => HVal.arrQ (ts.map (· - t0))
  | v => v

/-- The `for stream_type in relative_results['data']` loop over the copy's
data dict. -/
def rebaseDataDictHeap (t0 : ℚ) (d : List (String × HVal)) :
    List (String × HVal) :=
  d.map fun e =>
    if endsWithStr e.1 "_timestamps" then (e.1, rebaseStampsVal t0 e.2) else e

/-- `record['onset'] = record['onset'] - global_t0` on the dictionary cell
at `a` (a no-op on a missing cell or a non-numeric slot, which stored
bundles never exhibit). -/
def writeOnset (t0 : ℚ) (h : Heap) (a : ℕ) : Heap :=
  match h.lookup a with
  | some d =>
    match dictGet d "onset" with
    | some (HVal.num x) => h.update a (dictSet d "onset" (HVal.num (x - t0)))
    | _ => h
  | none => h

/-- The `for event in relative_results['events']`-style loops. -/
def writeOnsetList (t0 : ℚ) : Heap → List ℕ → Heap
  | h, [] => h
  | h, a :: as => writeOnsetList t0 (writeOnset t0 h a) as

/-- The `relative_results['data']` rewrite: reassign the copy's data dict in
place with all `_timestamps` arrays rebased. -/
def mutData (t0 : ℚ) (d1 : List (String × HVal)) (h : Heap) : Heap :=
  match dictGet d1 "data" with
  | some (HVal.href da) =>
    match h.lookup da with
    | some dd => h.update da (rebaseDataDictHeap t0 dd)
    | none => h
  | _ => h

/-- One of the `for record in relative_results[key]` onset loops. -/
def mutStep (t0 : ℚ) (key : String) (d1 : List (String × HVal)) (h : Heap) :
    Heap :=
  match dictGet d1 key with
  | some (HVal.listRefs as) => writeOnsetList t0 h as
  | _ => h

/-- The in-place mutation phase of `apply_relative_time_to_results`, applied
to the copy rooted at `r1` (the root's entries are read once — no step
writes the root until the final flag assignment, matching the source
order: data, events, meta, trials, perturbations, then the flag). -/
def applyRelMuts (t0 : ℚ) (h1 : Heap) (r1 : ℕ) : Heap :=
  match h1.lookup r1 with
  | none => h1
  | some d1 =>
    let hs := mutStep t0 "perturbations" d1 (mutStep t0 "trials" d1
      (mutStep t0 "meta" d1 (mutStep t0 "events" d1 (mutData t0 d1 h1))))
    match hs.lookup r1 with
    | some dcur =>
      hs.update r1 (dictSet dcur "use_relative_time" (HVal.boolv true))
    | none => hs

/-- Heap-level `apply_relative_time_to_results`: read `global_t0` from the
original's `time_window`, deep-copy the results dictionary, mutate the
copy.  On copy failure (fuel exhaustion) nothing happens — returns the
input unchanged. -/
def applyRelHeap (fuel : ℕ) (h : Heap) (r : ℕ) : Heap × ℕ :=
  match h.lookup r with
  | none => (h, r)
  | some d0 =>
    match dictGet d0 "time_window" with
    | some (HVal.tup t0 _) =>
      match copyRef fuel h r with
      | some (h1, r1) => (applyRelMuts t0 h1 r1, r1)
      | none => (h, r)
    | _ => (h, r)

/-! #### Storing a `Results` bundle on the heap -/

def eventDict (e : Event) : List (String × HVal) :=
  [("onset", HVal.num e.onset), ("duration", HVal.num e.duration),
   ("event_type", HVal.str e.event_type), ("source", HVal.str e.source),
   ("label", HVal.str e.label)]

def metaRecDict (m : MetaRec) : List (String × HVal) :=
  [("onset", HVal.num m.onset), ("source", HVal.str m.source)] ++
  (match m.label with | some s => [("label", HVal.str s)] | none => []) ++
  (match m.trial_name with | some s => [("trial_name", HVal.str s)] | none => []) ++
  (match m.trial_type with | some s => [("trial_type", HVal.str s)] | none => [])

def trialDict (t : Trial) : List (String × HVal) :=
  [("onset", HVal.num t.onset), ("duration", HVal.num t.duration),
   ("trial_type", HVal.str t.trial_type),
   ("trial_number", HVal.intv t.trial_number)]

def pertDict (p : Pert) : List (String × HVal) :=
  [("onset", HVal.num p.onset), ("duration", HVal.num p.duration),
   ("event_type", HVal.str p.event_type), ("source", HVal.str p.source)]

def streamMetaDict (m : StreamMeta) : List (String × HVal) :=
  [("name", HVal.str m.name), ("channel_count", HVal.intv m.channel_count),
   ("nominal_srate", HVal.num m.nominal_srate),
   ("effective_srate", HVal.num m.effective_srate),
   ("type", HVal.str m.type),
   ("channel_labels", HVal.listStrs m.channel_labels),
   ("samples", HVal.intv m.samples)]

def procInfoDict (i : ProcInfo) : List (String × HVal) :=
  [("data_streams_processed", HVal.intv i.data_streams_processed),
   ("events_found", HVal.intv i.events_found),
   ("trials_found", HVal.intv i.trials_found),
   ("duration", HVal.num i.duration)]

/-- Allocate one cell per dictionary, collecting the addresses. -/
def allocList (h : Heap) : List (List (String × HVal)) → Heap × List ℕ
  | [] => (h, [])
  | d :: rest =>
    let p := h.alloc d
    let q := allocList p.1 rest
    (q.1, p.2 :: q.2)

/-- Store the `results['data']` dict: `raw_data` blocks become nested
dictionary cells, timestamp arrays are stored inline. -/
def storeDataEntries (h : Heap) : List (String × DataVal) →
    Heap × List (String × HVal)
  | [] => (h, [])
  | (k, DataVal.raw rows) :: rest =>
    let p := h.alloc [("raw_data", HVal.arrRows rows)]
    let q := storeDataEntries p.1 rest
    (q.1, (k, HVal.href p.2) :: q.2)
  | (k, DataVal.stamps ts) :: rest =>
    let q := storeDataEntries h rest
    (q.1, (k, HVal.arrQ ts) :: q.2)

def storeMetaEntries (h : Heap) : List (String × StreamMeta) →
    Heap × List (String × HVal)
  | [] => (h, [])
  | (k, m) :: rest =>
    let p := h.alloc (streamMetaDict m)
    let q := storeMetaEntries p.1 rest
    (q.1, (k, HVal.href p.2) :: q.2)

/-- Lay a `Results` bundle out on the heap exactly as `process_data` builds
the results dictionary; returns the root dictionary's address. -/
def storeResults (res : Results) (h0 : Heap) : Heap × ℕ :=
  let pd := storeDataEntries h0 res.data
  let dataCell := pd.1.alloc pd.2
  let md := storeMetaEntries dataCell.1 res.metadata
  let metaCell := md.1.alloc md.2
  let ev := allocList metaCell.1 (res.events.map eventDict)
  let me := allocList ev.1 (res.meta.map metaRecDict)
  let tr := allocList me.1 (res.trials.map trialDict)
  let pe := allocList tr.1 (res.perturbations.map pertDict)
  let pi := pe.1.alloc (procInfoDict res.processing_info)
  let root := pi.1.alloc
    ([("data", HVal.href dataCell.2), ("metadata", HVal.href metaCell.2),
      ("events", HVal.listRefs ev.2), ("meta", HVal.listRefs me.2),
      ("trials", HVal.listRefs tr.2), ("perturbations", HVal.listRefs pe.2),
      ("time_window", HVal.tup res.time_window.1 res.time_window.2),
      ("global_t0", HVal.num res.global_t0),
      ("processing_info", HVal.href pi.2)] ++
      (match res.use_relative_time with
       | some b => [("use_relative_time", HVal.boolv b)]
       | none => []))
  (root.1, root.2)

/-! #### Heap lemmas -/

theorem heap_lookup_alloc_ne (h : Heap) (d : List (String × HVal)) (a : ℕ)
    (ha : a ≠ h.next) : (h.alloc d).1.lookup a = h.lookup a := by
  simp only [Heap.alloc, Heap.lookup, List.find?_append]
  have h2 : List.find? (fun c => c.1 = a) [(h.next, d)] = none := by
    have : ¬ h.next = a := fun hc => ha hc.symm
    simp [List.find?, this]
  rw [h2]
  cases h.cells.find? fun c => c.1 = a <;> rfl

theorem heap_next_alloc (h : Heap) (d : List (String × HVal)) :
    (h.alloc d).1.next = h.next + 1 := rfl

theorem heap_lookup_alloc_self (h : Heap) (d : List (String × HVal))
    (hwf : h.WF) : (h.alloc d).1.lookup h.next = some d := by
  simp only [Heap.alloc, Heap.lookup, List.find?_append]
  have hnone : h.cells.find? (fun c => c.1 = h.next) = none := by
    rw [List.find?_eq_none]
    intro c hc
    have := hwf c hc
    simp only [decide_eq_true_eq]
    omega
  rw [hnone]
  simp [List.find?]

theorem heap_WF_alloc (h : Heap) (d : List (String × HVal)) (hwf : h.WF) :
    (h.alloc d).1.WF := by
  intro c hc
  simp only [Heap.alloc] at hc ⊢
  rcases List.mem_append.mp hc with h1 | h1
  · exact Nat.lt_succ_of_lt (hwf c h1)
  · rw [List.mem_singleton.mp h1]
    omega

theorem heap_lookup_update_ne (h : Heap) (b : ℕ) (d : List (String × HVal))
    (a : ℕ) (hab : a ≠ b) : (h.update b d).lookup a = h.lookup a := by
  simp only [Heap.update, Heap.lookup]
  have : ∀ cells : List (ℕ × List (String × HVal)),
      (cells.map fun c => if c.1 = b then (b, d) else c).find?
        (fun c => c.1 = a) = cells.find? fun c => c.1 = a := by
    intro cells
    induction cells with
    | nil => rfl
    | cons c rest ih =>
      by_cases hcb : c.1 = b
      · have hca : ¬ c.1 = a := fun hc => hab (by rw [← hc]; exact hcb)
        have hba : ¬ b = a := fun hc => hab hc.symm
        simp [List.find?, hcb, hca, hba, hab, ih]
      · by_cases hca : c.1 = a <;> simp [List.find?, hcb, hca, hab, ih]
  rw [this]

theorem heap_next_update (h : Heap) (b : ℕ) (d : List (String × HVal)) :
    (h.update b d).next = h.next := rfl

theorem heap_WF_update (h : Heap) (b : ℕ) (d : List (String × HVal))
    (hwf : h.WF) : (h.update b d).WF := by
  intro c hc
  simp only [Heap.update] at hc ⊢
  rcases List.mem_map.mp hc with ⟨c0, hc0, hceq⟩
  have hlt := hwf c0 hc0
  by_cases hcb : c0.1 = b
  · rw [← hceq]
    simp only [hcb, if_true]
    omega
  · rw [← hceq]
    simp only [hcb, if_false]
    exact hlt

theorem heap_WF_lookup_none (h : Heap) (a : ℕ) (hwf : h.WF)
    (ha : h.next ≤ a) : h.lookup a = none := by
  simp only [Heap.lookup]
  have : h.cells.find? (fun c => c.1 = a) = none := by
    rw [List.find?_eq_none]
    intro c hc
    have := hwf c hc
    simp only [decide_eq_true_eq]
    omega
  rw [this]
  rfl

/-! #### The deep-copy specification -/

/-- What a successful copy step guarantees: the heap only grows, old cells
are untouched, the produced references are fresh, and every cell written
during the copy references only fresh cells. -/
def CopyOut (h h1 : Heap) (rs : List ℕ) : Prop :=
  h.next ≤ h1.next ∧ h1.WF ∧
  (∀ a, a < h.next → h1.lookup a = h.lookup a) ∧
  (∀ b ∈ rs, h.next ≤ b ∧ b < h1.next) ∧
  (∀ a d2, h.next ≤ a → h1.lookup a = some d2 →
    ∀ b ∈ dictRefs d2, h.next ≤ b ∧ b < h1.next)

theorem CopyOut.refl_nil (h : Heap) (hwf : h.WF) : CopyOut h h [] :=
  ⟨le_refl _, hwf, fun _ _ => rfl, by simp, fun a d2 ha hl =>
    absurd hl (by rw [heap_WF_lookup_none h a hwf ha]; simp)⟩

theorem CopyOut.comp {h hA h2 : Heap} {rs1 rs2 : List ℕ}
    (c1 : CopyOut h hA rs1) (c2 : CopyOut hA h2 rs2) :
    CopyOut h h2 (rs1 ++ rs2) := by
  obtain ⟨n1, w1, p1, b1, cl1⟩ := c1
  obtain ⟨n2, w2, p2, b2, cl2⟩ := c2
  refine ⟨le_trans n1 n2, w2, ?_, ?_, ?_⟩
  · intro a ha
    rw [p2 a (lt_of_lt_of_le ha n1), p1 a ha]
  · intro b hb
    rcases List.mem_append.mp hb with hb | hb
    · rcases b1 b hb with ⟨hlo, hhi⟩
      exact ⟨hlo, lt_of_lt_of_le hhi n2⟩
    · rcases b2 b hb with ⟨hlo, hhi⟩
      exact ⟨le_trans n1 hlo, hhi⟩
  · intro a d2 ha hl b hb
    by_cases hcase : a < hA.next
    · rw [p2 a hcase] at hl
      rcases cl1 a d2 ha hl b hb with ⟨hlo, hhi⟩
      exact ⟨hlo, lt_of_lt_of_le hhi n2⟩
    · rcases cl2 a d2 (le_of_not_lt hcase) hl b hb with ⟨hlo, hhi⟩
      exact ⟨le_trans n1 hlo, hhi⟩

theorem CopyOut.alloc_step {h hA : Heap} {d1 : List (String × HVal)}
    (c : CopyOut h hA (dictRefs d1)) :
    CopyOut h (hA.alloc d1).1 [hA.next] := by
  obtain ⟨n1, w1, p1, b1, cl1⟩ := c
  refine ⟨?_, heap_WF_alloc hA d1 w1, ?_, ?_, ?_⟩
  · rw [heap_next_alloc]; omega
  · intro a ha
    rw [heap_lookup_alloc_ne hA d1 a (by omega), p1 a ha]
  · intro b hb
    rw [List.mem_singleton.mp hb, heap_next_alloc]
    omega
  · intro a d2 ha hl b hb
    rw [heap_next_alloc]
    by_cases hcase : a = hA.next
    · subst hcase
      rw [heap_lookup_alloc_self hA d1 w1] at hl
      injection hl with hl
      subst hl
      rcases b1 b hb with ⟨hlo, hhi⟩
      exact ⟨hlo, by omega⟩
    · rw [heap_lookup_alloc_ne hA d1 a hcase] at hl
      rcases cl1 a d2 ha hl b hb with ⟨hlo, hhi⟩
      exact ⟨hlo, by omega⟩

theorem copy_spec (fuel : ℕ) :
    (∀ h v h1 v1, Heap.WF h → copyVal fuel h v = some (h1, v1) →
      CopyOut h h1 (valRefs v1)) ∧
    (∀ h a h1 a1, Heap.WF h → copyRef fuel h a = some (h1, a1) →
      CopyOut h h1 [a1]) ∧
    (∀ h d h1 d1, Heap.WF h → copyDict fuel h d = some (h1, d1) →
      CopyOut h h1 (dictRefs d1)) ∧
    (∀ h as h1 bs, Heap.WF h → copyRefs fuel h as = some (h1, bs) →
      CopyOut h h1 bs) := by
  induction fuel with
  | zero =>
    refine ⟨?_, ?_, ?_, ?_⟩ <;> intro h x h1 y _ hc <;> cases hc
  | succ fuel ih =>
    obtain ⟨ihV, ihR, ihD, ihL⟩ := ih
    have hRef : ∀ h a h1 a1, Heap.WF h → copyRef (fuel + 1) h a = some (h1, a1) →
        CopyOut h h1 [a1] := by
      intro h a h1 a1 hwf hc
      cases hL : h.lookup a with
      | none => simp [copyRef, hL] at hc
      | some d =>
        cases hD : copyDict fuel h d with
        | none => simp [copyRef, hL, hD] at hc
        | some p =>
          rcases p with ⟨hA, dA⟩
          have hcd := ihD h d hA dA hwf hD
          simp only [copyRef, hL, hD, Option.some.injEq, Prod.mk.injEq] at hc
          obtain ⟨rfl, rfl⟩ := hc
          exact CopyOut.alloc_step hcd
    refine ⟨?_, hRef, ?_, ?_⟩
    · intro h v h1 v1 hwf hc
      cases v
      case href a =>
        cases hR : copyRef fuel h a with
        | none => simp [copyVal, hR] at hc
        | some p =>
          rcases p with ⟨hA, aA⟩
          simp only [copyVal, hR, Option.some.injEq, Prod.mk.injEq] at hc
          obtain ⟨rfl, rfl⟩ := hc
          simpa [valRefs] using ihR h a hA aA hwf hR
      case listRefs as =>
        cases hR : copyRefs fuel h as with
        | none => simp [copyVal, hR] at hc
        | some p =>
          rcases p with ⟨hA, bsA⟩
          simp only [copyVal, hR, Option.some.injEq, Prod.mk.injEq] at hc
          obtain ⟨rfl, rfl⟩ := hc
          simpa [valRefs] using ihL h as hA bsA hwf hR
      all_goals
        simp only [copyVal, Option.some.injEq, Prod.mk.injEq] at hc
      all_goals obtain ⟨rfl, rfl⟩ := hc
      all_goals simpa [valRefs] using CopyOut.refl_nil h hwf
    · intro h d h1 d1 hwf hc
      cases d with
      | nil =>
        simp only [copyDict, Option.some.injEq, Prod.mk.injEq] at hc
        obtain ⟨rfl, rfl⟩ := hc
        simpa [dictRefs] using CopyOut.refl_nil h hwf
      | cons e rest =>
        cases hV : copyVal fuel h e.2 with
        | none => simp [copyDict, hV] at hc
        | some p =>
          rcases p with ⟨hA, vA⟩
          cases hD : copyDict fuel hA rest with
          | none => simp [copyDict, hV, hD] at hc
          | some q =>
            rcases q with ⟨hB, dB⟩
            have c1 := ihV h e.2 hA vA hwf hV
            have c2 := ihD hA rest hB dB c1.2.1 hD
            simp only [copyDict, hV, hD, Option.some.injEq, Prod.mk.injEq] at hc
            obtain ⟨rfl, rfl⟩ := hc
            simpa [dictRefs, List.flatMap_cons] using CopyOut.comp c1 c2
    · intro h as h1 bs hwf hc
      cases as with
      | nil =>
        simp only [copyRefs, Option.some.injEq, Prod.mk.injEq] at hc
        obtain ⟨rfl, rfl⟩ := hc
        simpa using CopyOut.refl_nil h hwf
      | cons a rest =>
        cases hR : copyRef fuel h a with
        | none => simp [copyRefs, hR] at hc
        | some p =>
          rcases p with ⟨hA, aA⟩
          cases hL : copyRefs fuel hA rest with
          | none => simp [copyRefs, hR, hL] at hc
          | some q =>
            rcases q with ⟨hB, bsB⟩
            have c1 := ihR h a hA aA hwf hR
            have c2 := ihL hA rest hB bsB c1.2.1 hL
            simp only [copyRefs, hR, hL, Option.some.injEq, Prod.mk.injEq] at hc
            obtain ⟨rfl, rfl⟩ := hc
            simpa using CopyOut.comp c1 c2

/-! #### The mutation phase writes only into the copy -/

theorem writeOnset_lookup_lt (t0 : ℚ) (h : Heap) (a N : ℕ) (haN : N ≤ a) :
    ∀ x, x < N → (writeOnset t0 h a).lookup x = h.lookup x := by
  intro x hx
  rw [writeOnset]
  split
  · split
    · exact heap_lookup_update_ne h a _ x (by omega)
    · rfl
  · rfl

theorem writeOnsetList_lookup_lt (t0 : ℚ) (as : List ℕ) (N : ℕ) :
    ∀ h : Heap, (∀ a ∈ as, N ≤ a) → ∀ x, x < N →
      (writeOnsetList t0 h as).lookup x = h.lookup x := by
  induction as with
  | nil => intro h _ x _; rfl
  | cons a rest ih =>
    intro h hall x hx
    rw [writeOnsetList,
      ih (writeOnset t0 h a) (fun b hb => hall b (List.mem_cons_of_mem _ hb)) x hx,
      writeOnset_lookup_lt t0 h a N (hall a (List.mem_cons_self _ _)) x hx]

theorem dictGet_refs (d : List (String × HVal)) (k : String) (v : HVal)
    (hg : dictGet d k = some v) : ∀ b ∈ valRefs v, b ∈ dictRefs d := by
  intro b hb
  rw [dictGet] at hg
  cases hf : d.find? (·.1 = k) with
  | none => rw [hf] at hg; cases hg
  | some e =>
    rw [hf] at hg
    injection hg with hg
    have hmem : e ∈ d := List.mem_of_find?_eq_some hf
    have hg2 : e.2 = v := hg
    exact List.mem_flatMap.mpr ⟨e, hmem, by rw [hg2]; exact hb⟩

theorem mutData_lookup_lt (t0 : ℚ) (d1 : List (String × HVal)) (h : Heap)
    (N : ℕ) (hrefs : ∀ b ∈ dictRefs d1, N ≤ b) :
    ∀ x, x < N → (mutData t0 d1 h).lookup x = h.lookup x := by
  intro x hx
  rw [mutData]
  split
  · rename_i da heq
    have hda : N ≤ da :=
      hrefs da (dictGet_refs d1 "data" _ heq da (by simp [valRefs]))
    split
    · exact heap_lookup_update_ne h da _ x (by omega)
    · rfl
  · rfl

theorem mutStep_lookup_lt (t0 : ℚ) (key : String)
    (d1 : List (String × HVal)) (h : Heap) (N : ℕ)
    (hrefs : ∀ b ∈ dictRefs d1, N ≤ b) :
    ∀ x, x < N → (mutStep t0 key d1 h).lookup x = h.lookup x := by
  intro x hx
  rw [mutStep]
  split
  · rename_i as heq
    refine writeOnsetList_lookup_lt t0 as N h ?_ x hx
    intro b hb
    exact hrefs b (dictGet_refs d1 key _ heq b (by simpa [valRefs] using hb))
  · rfl

theorem applyRelMuts_lookup_lt (t0 : ℚ) (h1 : Heap) (r1 N : ℕ)
    (hr : N ≤ r1)
    (hclo : ∀ a d, N ≤ a → h1.lookup a = some d → ∀ b ∈ dictRefs d, N ≤ b) :
    ∀ x, x < N → (applyRelMuts t0 h1 r1).lookup x = h1.lookup x := by
  intro x hx
  simp only [applyRelMuts]
  split
  · rfl
  · rename_i d1 hL
    have hrefs : ∀ b ∈ dictRefs d1, N ≤ b := hclo r1 d1 hr hL
    have s0 := mutData_lookup_lt t0 d1 h1 N hrefs x hx
    have s1 := mutStep_lookup_lt t0 "events" d1 (mutData t0 d1 h1) N hrefs x hx
    have s2 := mutStep_lookup_lt t0 "meta" d1
      (mutStep t0 "events" d1 (mutData t0 d1 h1)) N hrefs x hx
    have s3 := mutStep_lookup_lt t0 "trials" d1
      (mutStep t0 "meta" d1 (mutStep t0 "events" d1 (mutData t0 d1 h1))) N
      hrefs x hx
    have s4 := mutStep_lookup_lt t0 "perturbations" d1
      (mutStep t0 "trials" d1 (mutStep t0 "meta" d1
        (mutStep t0 "events" d1 (mutData t0 d1 h1)))) N hrefs x hx
    have schain : (mutStep t0 "perturbations" d1 (mutStep t0 "trials" d1
        (mutStep t0 "meta" d1 (mutStep t0 "events" d1
          (mutData t0 d1 h1))))).lookup x = h1.lookup x := by
      rw [s4, s3, s2, s1, s0]
    split
    · exact (heap_lookup_update_ne _ r1 _ x (by omega)).trans schain
    · exact schain

/-! #### Stored bundles are well-formed -/

theorem allocList_WF (ds : List (List (String × HVal))) :
    ∀ h : Heap, h.WF → (allocList h ds).1.WF := by
  induction ds with
  | nil => intro h hwf; exact hwf
  | cons d rest ih =>
    intro h hwf
    exact ih (h.alloc d).1 (heap_WF_alloc h d hwf)

theorem storeDataEntries_WF (l : List (String × DataVal)) :
    ∀ h : Heap, h.WF → (storeDataEntries h l).1.WF := by
  induction l with
  | nil => intro h hwf; exact hwf
  | cons e rest ih =>
    intro h hwf
    rcases e with ⟨k, v⟩
    cases v with
    | raw rows => exact ih _ (heap_WF_alloc h _ hwf)
    | stamps ts => exact ih h hwf

theorem storeMetaEntries_WF (l : List (String × StreamMeta)) :
    ∀ h : Heap, h.WF → (storeMetaEntries h l).1.WF := by
  induction l with
  | nil => intro h hwf; exact hwf
  | cons e rest ih =>
    intro h hwf
    exact ih _ (heap_WF_alloc h _ hwf)

theorem storeResults_WF (res : Results) (h0 : Heap) (hwf : h0.WF) :
    (storeResults res h0).1.WF :=
  heap_WF_alloc _ _ (heap_WF_alloc _ _ (allocList_WF _ _ (allocList_WF _ _
    (allocList_WF _ _ (allocList_WF _ _ (heap_WF_alloc _ _
      (storeMetaEntries_WF _ _ (heap_WF_alloc _ _
        (storeDataEntries_WF _ _ hwf)))))))))

/-- C6: `apply_relative_time_to_results` never mutates its input.  In the
heap model — bundle laid out by `storeResults`, `copy.deepcopy` and the
in-place onset mutations performed by `applyRelHeap` — every heap cell of
the original results dictionary (indeed every pre-existing cell) is
unchanged after the call: all writes land in the freshly copied cells, so
absolute- and relative-time exports can both be produced from one
extraction pass. -/
theorem apply_relative_heap_frame (fuel : ℕ) (res : Results) (h0 : Heap)
    (hwf : h0.WF) :
    ∀ a, a < (storeResults res h0).1.next →
      (applyRelHeap fuel (storeResults res h0).1
          (storeResults res h0).2).1.lookup a =
        (storeResults res h0).1.lookup a := by
  intro a ha
  have hWF : (storeResults res h0).1.WF := storeResults_WF res h0 hwf
  rw [applyRelHeap]
  split
  · rfl
  · rename_i d0 hL
    split
    · rename_i t0 t1 hG
      split
      · rename_i p h1 r1 hC
        obtain ⟨hn, hw1, hpres, hb, hclo⟩ :=
          (copy_spec fuel).2.1 (storeResults res h0).1 (storeResults res h0).2
            h1 r1 hWF hC
        have hr1 : (storeResults res h0).1.next ≤ r1 := (hb r1 (by simp)).1
        have hmut := applyRelMuts_lookup_lt t0 h1 r1 (storeResults res h0).1.next
          hr1 (fun a2 d2 ha2 hl2 b hb2 => (hclo a2 d2 ha2 hl2 b hb2).1) a ha
        exact hmut.trans (hpres a ha)
      · rfl
    · rfl

/-- C6 witness instance: a small bundle (one timestamps array, one event)
stored on the empty heap; address `0` (the first cell of the original) is
unchanged by the heap-level rebase, and the returned root is a fresh
address, showing the copy actually ran. -/
theorem apply_relative_heap_frame_witness :
    (⟨[], 0⟩ : Heap).WF ∧
    0 < (storeResults
      { data := [("wii_timestamps", DataVal.stamps [0])], metadata := [],
        events := [⟨1, 0, "x", "m", "x"⟩], meta := [], trials := [],
        perturbations := [], time_window := (0, 1), global_t0 := 0,
        processing_info := ⟨2, 1, 0, 1⟩, use_relative_time := none }
      ⟨[], 0⟩).1.next ∧
    (applyRelHeap 100
        (storeResults
          { data := [("wii_timestamps", DataVal.stamps [0])], metadata := [],
            events := [⟨1, 0, "x", "m", "x"⟩], meta := [], trials := [],
            perturbations := [], time_window := (0, 1), global_t0 := 0,
            processing_info := ⟨2, 1, 0, 1⟩, use_relative_time := none }
          ⟨[], 0⟩).1
        (storeResults
          { data := [("wii_timestamps", DataVal.stamps [0])], metadata := [],
            events := [⟨1, 0, "x", "m", "x"⟩], meta := [], trials := [],
            perturbations := [], time_window := (0, 1), global_t0 := 0,
            processing_info := ⟨2, 1, 0, 1⟩, use_relative_time := none }
          ⟨[], 0⟩).2).1.lookup 0 =
      (storeResults
        { data := [("wii_timestamps", DataVal.stamps [0])], metadata := [],
          events := [⟨1, 0, "x", "m", "x"⟩], meta := [], trials := [],
          perturbations := [], time_window := (0, 1), global_t0 := 0,
          processing_info := ⟨2, 1, 0, 1⟩, use_relative_time := none }
        ⟨[], 0⟩).1.lookup 0 ∧
    (applyRelHeap 100
        (storeResults
          { data := [("wii_timestamps", DataVal.stamps [0])], metadata := [],
            events := [⟨1, 0, "x", "m", "x"⟩], meta := [], trials := [],
            perturbations := [], time_window := (0, 1), global_t0 := 0,
            processing_info := ⟨2, 1, 0, 1⟩, use_relative_time := none }
          ⟨[], 0⟩).1
        (storeResults
          { data := [("wii_timestamps", DataVal.stamps [0])], metadata := [],
            events := [⟨1, 0, "x", "m", "x"⟩], meta := [], trials := [],
            perturbations := [], time_window := (0, 1), global_t0 := 0,
            processing_info := ⟨2, 1, 0, 1⟩, use_relative_time := none }
          ⟨[], 0⟩).2).2 ≠
      (storeResults
        { data := [("wii_timestamps", DataVal.stamps [0])], metadata := [],
          events := [⟨1, 0, "x", "m", "x"⟩], meta := [], trials := [],
          perturbations := [], time_window := (0, 1), global_t0 := 0,
          processing_info := ⟨2, 1, 0, 1⟩, use_relative_time := none }
        ⟨[], 0⟩).2 :=
  ⟨fun c hc => absurd hc (List.not_mem_nil c),
    by decide,
    apply_relative_heap_frame 100
      { data := [("wii_timestamps", DataVal.stamps [0])], metadata := [],
        events := [⟨1, 0, "x", "m", "x"⟩], meta := [], trials := [],
        perturbations := [], time_window := (0, 1), global_t0 := 0,
        processing_info := ⟨2, 1, 0, 1⟩, use_relative_time := none }
      ⟨[], 0⟩ (fun c hc => absurd hc (List.not_mem_nil c)) 0 (by decide),
    by decide⟩

end Xdf
